import Mathlib

/-!
# The stock dashboard of `script.js`

A shallow embedding of the class `StockDashboard` and of the two page level event
handlers of `script.js`, followed by theorems about it.

Modelling decisions.

* **Strings** are Lean strings.  `String.prototype.trim` is `JS.trim`;
  `String.prototype.toUpperCase` depends on the Unicode tables of the host and is a field of
  `Host`.
* **Numbers** are the rationals that are binary64 values.  Every arithmetic operation of the
  script is the exact operation followed by `JS.binary64` (round to nearest, ties to even), as
  IEEE 754 prescribes.  The quantities of the script stay far from overflow, so infinities and
  NaN do not arise.
* **`toFixed`** yields a decimal string; it is kept as the record `JS.Fixed` of its sign, digits
  and number of decimals, with `JS.Fixed.toString` for the text and `JS.parseFloat` for the way
  back.
* **`Map`** is a list of entries in insertion order, which is the order `forEach` visits.
* **`Math.random`, `new Date`, `setInterval`** are answered by a `Host`; the dashboard counts
  the calls made so far so that successive calls get successive answers.
* **`async` / `await`**: nothing the script awaits ever suspends on I/O, so every handler runs to
  completion before the next event is delivered.  The one visible effect of the `await`s is in
  `init`, where the body of `loadInitialStocks` after its first `await` runs after the remaining
  statements of `init`; see `StockDashboard.init`.
* **The page** (input field, checkbox, card grid, notices, loading overlay, live interval
  timers) is part of the state record, next to the fields of the class.
-/

namespace JS

/-! ## Strings -/

/-- The code points of white space and line terminators. -/
def isWhiteSpaceCode (n : ℕ) : Bool :=
  decide (n ∈ [0x09, 0x0A, 0x0B, 0x0C, 0x0D, 0x20, 0xA0, 0x1680, 0x2028, 0x2029,
    0x202F, 0x205F, 0x3000, 0xFEFF]) || (decide (0x2000 ≤ n) && decide (n ≤ 0x200A))

/-- White space and line terminators, the characters `String.prototype.trim` strips. -/
def isWhiteSpace (c : Char) : Bool :=
  isWhiteSpaceCode c.toNat

/-- The function `String.prototype.trim`: white space is dropped at both ends. -/
def trim (s : String) : String :=
  String.mk ((s.data.dropWhile isWhiteSpace).rdropWhile isWhiteSpace)

/-- The function `String.prototype.padStart` with a one character filler. -/
def padStart (s : String) (targetLength : ℕ) (fill : Char) : String :=
  String.mk (List.replicate (targetLength - s.length) fill) ++ s

/-! ## Numbers -/

/-- Round a rational to the nearest integer, an exact tie going to the even neighbour. -/
def roundTiesToEven (q : ℚ) : ℤ :=
  if q - ⌊q⌋ < 1 / 2 then ⌊q⌋
  else if 1 / 2 < q - ⌊q⌋ then ⌊q⌋ + 1
  else if ⌊q⌋ % 2 = 0 then ⌊q⌋ else ⌊q⌋ + 1

/-- Exponent of the spacing of the binary64 numbers around `x`: 52 below the binary exponent of
`x`, and constant in the subnormal range. -/
def ulpExponent (x : ℚ) : ℤ :=
  max (Int.log 2 |x|) (-1022) - 52

/-- The binary64 number nearest to `x` (round to nearest, ties to even), for `|x| < 2 ^ 1024`. -/
def binary64 (x : ℚ) : ℚ :=
  roundTiesToEven (x / 2 ^ ulpExponent x) * 2 ^ ulpExponent x

/-- The string `Number.prototype.toFixed` returns, held as its parts: the sign, the integer `n`
whose decimal digits are printed, and the number of digits after the point. -/
structure Fixed where
  negative : Bool
  digits : ℕ
  places : ℕ
deriving DecidableEq

/-- The text of a `toFixed` result. -/
def Fixed.toString (s : Fixed) : String :=
  (if s.negative then "-" else "") ++ Nat.repr (s.digits / 10 ^ s.places) ++
    (if s.places = 0 then ""
     else "." ++ padStart (Nat.repr (s.digits % 10 ^ s.places)) s.places '0')

/-- The decimal number a `toFixed` result denotes. -/
def Fixed.value (s : Fixed) : ℚ :=
  (if s.negative then -1 else 1) * (s.digits : ℚ) / 10 ^ s.places

/-- The method `Number.prototype.toFixed`, for `|x| < 10 ^ 21`: with `n` the integer for which
`n / 10 ^ f - |x|` is closest to zero, the larger one at a tie. -/
def toFixed (x : ℚ) (fractionDigits : ℕ) : Fixed :=
  { negative := decide (x < 0)
    digits := ⌊|x| * 10 ^ fractionDigits + 1 / 2⌋₊
    places := fractionDigits }

/-- The function `parseFloat` on a `toFixed` result: the Number nearest to the decimal. -/
def parseFloat (s : Fixed) : ℚ :=
  binary64 s.value

/-! ## `Map` and `Array` -/

/-- A `Map` with string keys: its entries in insertion order. -/
abbrev Map (β : Type) := List (String × β)

/-- The keys of a map, in the order `forEach` visits them. -/
def Map.keys {β : Type} (m : Map β) : List String :=
  m.map Prod.fst

/-- The method `Map.prototype.get`. -/
def Map.get {β : Type} : Map β → String → Option β
  | [], _ => none
  | e :: rest, key => if e.1 = key then some e.2 else Map.get rest key

/-- The method `Map.prototype.set`: a present key keeps its place and gets the new value, an
absent key is added last. -/
def Map.set {β : Type} : Map β → String → β → Map β
  | [], key, value => [(key, value)]
  | e :: rest, key, value =>
    if e.1 = key then (key, value) :: rest else e :: Map.set rest key value

/-- The method `Map.prototype.delete`. -/
def Map.delete {β : Type} (m : Map β) (key : String) : Map β :=
  m.filter (fun e => e.1 != key)

/-- The method `Array.prototype.indexOf`: the first index holding the element, or `-1`. -/
def indexOf (xs : List String) (x : String) : ℤ :=
  if x ∈ xs then (xs.indexOf x : ℤ) else -1

end JS

open JS

/-! ## The host -/

/-- What the script asks of the browser: case mapping, random numbers, the clock, timer handles,
and the state in which the page markup puts the auto refresh checkbox. -/
structure Host where
  /-- The method `String.prototype.toUpperCase`. -/
  toUpperCase : String → String
  /-- The answer to the `k`-th call of `Math.random()`. -/
  random : ℕ → ℚ
  /-- A result of `Math.random()` is at least 0. -/
  random_nonneg : ∀ k, 0 ≤ random k
  /-- A result of `Math.random()` is below 1. -/
  random_lt_one : ∀ k, random k < 1
  /-- The time, in milliseconds, of the `k`-th `new Date()`. -/
  now : ℕ → ℤ
  /-- The handle `setInterval` returns when the given interval timers are live. -/
  setInterval : List ℕ → ℕ
  /-- A timer handle is a positive integer. -/
  setInterval_ne_zero : ∀ live, setInterval live ≠ 0
  /-- A timer handle differs from the handles of the live timers. -/
  setInterval_fresh : ∀ live, setInterval live ∉ live
  /-- Whether the markup of the page has the auto refresh checkbox ticked. -/
  autoRefreshChecked : Bool

/-- Upper case of the letters `a` to `z`; every other character is kept. -/
def asciiUpper (c : Char) : Char :=
  if 97 ≤ c.toNat ∧ c.toNat ≤ 122 then Char.ofNat (c.toNat - 32) else c

/-- Results of `Math.random()` for examples: 3/4 at the call numbered 5, which is the one for
the open, and 0 at the others. -/
def exampleDraws (k : ℕ) : ℚ :=
  if k = 5 then 3 / 4 else 0

/-- A host for examples: case mapping of the ASCII letters, `Math.random()` giving 0 except
for 3/4 at the calls numbered 5 modulo 8, a clock that advances one millisecond a call, and
timer handles that count upwards. -/
def demoHost : Host where
  toUpperCase s := String.mk (s.data.map asciiUpper)
  random k := if k % 8 = 5 then 3 / 4 else 0
  random_nonneg k := by beta_reduce; split_ifs <;> norm_num
  random_lt_one k := by beta_reduce; split_ifs <;> norm_num
  now k := 1700000000000 + k
  setInterval live := live.foldr max 0 + 1
  setInterval_ne_zero _ := Nat.succ_ne_zero _
  setInterval_fresh live h := by
    have h1 : live.foldr max 0 + 1 ∈ live := h
    have := List.le_max_of_le h1 (le_refl _)
    rw [Nat.bot_eq_zero] at this
    omega
  autoRefreshChecked := true

/-! ## Data -/

/-- The object `generateMockStockData` returns. -/
structure Quote where
  symbol : String
  price : Fixed
  change : Fixed
  changePercent : Fixed
  volume : ℕ
  high : Fixed
  low : Fixed
  open_ : Fixed
  marketCap : String
  pe : Fixed
  timestamp : ℤ
deriving DecidableEq

/-- A notice put on the page by `showMessage`. -/
structure Message where
  text : String
  type : String
deriving DecidableEq

/-- What a card built by `createStockCard` shows. -/
structure StockCard where
  symbol : String
  changeClass : String
  changeIcon : String
  price : String
  change : String
  volume : String
  marketCap : String
  high : String
  low : String
deriving DecidableEq

/-- A card built by `loadMarketIndices`. -/
structure IndexCard where
  name : String
  value : String
  change : String
  changeClass : String
deriving DecidableEq

/-- Labels and data of the doughnut chart. -/
structure PortfolioChart where
  labels : List String
  data : List ℚ
deriving DecidableEq

/-- Labels (the days, as times in milliseconds) and data of the line chart. -/
structure MarketChart where
  labels : List ℤ
  data : List Fixed
deriving DecidableEq

/-- The dashboard object together with the parts of the page it reads and writes. -/
structure StockDashboard where
  /-- Field `this.stocks`. -/
  stocks : List String
  /-- Field `this.stockData`. -/
  stockData : Map Quote
  /-- Field `this.autoRefreshInterval`; `none` is `null`. -/
  autoRefreshInterval : Option ℕ
  /-- Field `this.portfolioChart`; `none` is `null`. -/
  portfolioChart : Option PortfolioChart
  /-- Field `this.marketChart`; `none` is `null`. -/
  marketChart : Option MarketChart
  /-- The value of the element `stockInput`. -/
  stockInput : String
  /-- The children of the element `stockGrid`. -/
  stockGrid : List StockCard
  /-- The children of the element `indicesGrid`. -/
  indicesGrid : List IndexCard
  /-- Whether the element `loadingOverlay` has the class `show`. -/
  loadingOverlay : Bool
  /-- The time shown in the element `lastUpdated`. -/
  lastUpdated : Option ℤ
  /-- Every notice `showMessage` has put on the page, oldest first. -/
  messages : List Message
  /-- Whether the checkbox `autoRefresh` is ticked. -/
  autoRefresh : Bool
  /-- The value of `document.hidden`. -/
  hidden : Bool
  /-- The handles of the live interval timers of the window. -/
  intervals : List ℕ
  /-- Number of calls of `Math.random()` made so far. -/
  randomCalls : ℕ
  /-- Number of `new Date()` made so far. -/
  dateCalls : ℕ

namespace StockDashboard

/-- Method `formatNumber`, for a non-negative integer argument. -/
def formatNumber (num : ℕ) : String :=
  if num ≥ 1000000 then
    (toFixed (binary64 ((num : ℚ) / 1000000)) 1).toString ++ "M"
  else if num ≥ 1000 then
    (toFixed (binary64 ((num : ℚ) / 1000)) 1).toString ++ "K"
  else
    Nat.repr num

/-- Method `showLoading`. -/
def showLoading (d : StockDashboard) (show_ : Bool) : StockDashboard :=
  { d with loadingOverlay := show_ }

/-- Method `showMessage`; the removal of the notice three seconds later is not part of the
model. -/
def showMessage (d : StockDashboard) (message : String) (type : String) : StockDashboard :=
  { d with messages := d.messages ++ [{ text := message, type := type }] }

/-- Method `updateLastUpdated`. -/
def updateLastUpdated (host : Host) (d : StockDashboard) : StockDashboard :=
  { d with lastUpdated := some (host.now d.dateCalls), dateCalls := d.dateCalls + 1 }

/-- The quote `generateMockStockData` builds from eight results of `Math.random()`, in the order
the calls are made, and from the time. -/
def mockStockData (symbol : String) (r : ℕ → ℚ) (time : ℤ) : Quote :=
  let basePrice := binary64 (binary64 (r 0 * 200) + 50)
  let change := binary64 (binary64 (r 1 - 1 / 2) * 20)
  let changePercent := binary64 (binary64 (change / basePrice) * 100)
  { symbol := symbol
    price := toFixed basePrice 2
    change := toFixed change 2
    changePercent := toFixed changePercent 2
    volume := ⌊binary64 (r 2 * 10000000)⌋₊
    high := toFixed (binary64 (basePrice + binary64 (r 3 * 10))) 2
    low := toFixed (binary64 (basePrice - binary64 (r 4 * 10))) 2
    open_ := toFixed (binary64 (basePrice + binary64 (binary64 (r 5 - 1 / 2) * 5))) 2
    marketCap := (toFixed (binary64 (binary64 (r 6 * 2000) + 100)) 1).toString ++ "B"
    pe := toFixed (binary64 (binary64 (r 7 * 30) + 10)) 1
    timestamp := time }

/-- Method `generateMockStockData`: the quote, and the dashboard after eight calls of
`Math.random()` and one `new Date()`. -/
def generateMockStockData (host : Host) (d : StockDashboard) (symbol : String) :
    Quote × StockDashboard :=
  (mockStockData symbol (fun i => host.random (d.randomCalls + i)) (host.now d.dateCalls),
   { d with randomCalls := d.randomCalls + 8, dateCalls := d.dateCalls + 1 })

/-- Method `fetchStockData`.  The body of the `try` cannot throw, so the `catch` branch is
never taken and the result is `true`. -/
def fetchStockData (host : Host) (d : StockDashboard) (symbol : String) :
    Bool × StockDashboard :=
  let mockData := generateMockStockData host d symbol
  (true, { mockData.2 with stockData := Map.set mockData.2.stockData symbol mockData.1 })

/-- Method `createStockCard`. -/
def createStockCard (data : Quote) : StockCard :=
  let isPositive : Bool := decide (parseFloat data.change ≥ 0)
  { symbol := data.symbol
    changeClass := if isPositive then "positive" else "negative"
    changeIcon := if isPositive then "fa-arrow-up" else "fa-arrow-down"
    price := "$" ++ data.price.toString
    change := (if isPositive then "+" else "") ++ data.change.toString ++ " (" ++
      (if isPositive then "+" else "") ++ data.changePercent.toString ++ "%)"
    volume := formatNumber data.volume
    marketCap := "$" ++ data.marketCap
    high := "$" ++ data.high.toString
    low := "$" ++ data.low.toString }

/-- Method `renderStockCards`: one card for every tracked symbol that has a quote. -/
def renderStockCards (d : StockDashboard) : StockDashboard :=
  { d with stockGrid :=
      d.stocks.filterMap (fun symbol => (Map.get d.stockData symbol).map createStockCard) }

/-- The inner loop of `updateCharts`: the mock portfolio value of one day, with the calls of
`Math.random()` starting at number `start`. -/
def mockPortfolioValue (host : Host) (stockData : Map Quote) (start : ℕ) : ℚ :=
  (stockData.foldl
    (fun (acc : ℚ × ℕ) e =>
      (binary64 (acc.1 + binary64 (parseFloat e.2.price *
          binary64 (1 + binary64 (binary64 (host.random acc.2 - 1 / 2) * binary64 (1 / 10))))),
       acc.2 + 1))
    (0, start)).1

/-- Method `updateCharts`. -/
def updateCharts (host : Host) (d : StockDashboard) : StockDashboard :=
  match d.portfolioChart, d.marketChart with
  | some _, some _ =>
    let symbols := d.stockData.map (fun e => e.1)
    let values := d.stockData.map (fun e => parseFloat e.2.price)
    let now := host.now d.dateCalls
    let days : List ℕ := [6, 5, 4, 3, 2, 1, 0]
    let timeLabels := days.map (fun i => now - (i : ℤ) * 24 * 60 * 60 * 1000)
    let portfolioValues := (List.range 7).map (fun j =>
      toFixed (mockPortfolioValue host d.stockData (d.randomCalls + j * d.stockData.length)) 2)
    { d with
      portfolioChart := some { labels := symbols, data := values }
      marketChart := some { labels := timeLabels, data := portfolioValues }
      randomCalls := d.randomCalls + 7 * d.stockData.length
      dateCalls := d.dateCalls + 1 }
  | _, _ => d

/-- Method `loadInitialStocks`. -/
def loadInitialStocks (host : Host) (d : StockDashboard) : StockDashboard :=
  let d := showLoading d true
  let d := d.stocks.foldl (fun d symbol => (fetchStockData host d symbol).2) d
  let d := renderStockCards d
  let d := updateCharts host d
  let d := showLoading d false
  updateLastUpdated host d

/-- Method `addStock`. -/
def addStock (host : Host) (d : StockDashboard) : StockDashboard :=
  let symbol := host.toUpperCase (trim d.stockInput)
  if symbol = "" then
    showMessage d "Please enter a stock symbol" "error"
  else if symbol ∈ d.stocks then
    showMessage d "Stock already added to dashboard" "error"
  else
    let d := showLoading d true
    let success := fetchStockData host d symbol
    let d := success.2
    let d :=
      if success.1 then
        let d := { d with stocks := d.stocks ++ [symbol] }
        let d := renderStockCards d
        let d := updateCharts host d
        let d := { d with stockInput := "" }
        showMessage d (symbol ++ " added successfully") "success"
      else d
    let d := showLoading d false
    updateLastUpdated host d

/-- Method `removeStock`. -/
def removeStock (host : Host) (d : StockDashboard) (symbol : String) : StockDashboard :=
  let index := indexOf d.stocks symbol
  if index > -1 then
    let d := { d with stocks := d.stocks.eraseIdx index.toNat }
    let d := { d with stockData := Map.delete d.stockData symbol }
    let d := renderStockCards d
    let d := updateCharts host d
    showMessage d (symbol ++ " removed from dashboard") "success"
  else d

/-- Method `refreshAllStocks`. -/
def refreshAllStocks (host : Host) (d : StockDashboard) : StockDashboard :=
  let d := showLoading d true
  let d := d.stocks.foldl (fun d symbol => (fetchStockData host d symbol).2) d
  let d := renderStockCards d
  let d := updateCharts host d
  let d := showLoading d false
  let d := updateLastUpdated host d
  showMessage d "All stocks refreshed successfully" "success"

/-- Method `clearAutoRefresh`.  The test `if (this.autoRefreshInterval)` fails for `null` and
for the number 0. -/
def clearAutoRefresh (d : StockDashboard) : StockDashboard :=
  match d.autoRefreshInterval with
  | some id =>
    if id ≠ 0 then
      { d with intervals := d.intervals.filter (fun t => t != id), autoRefreshInterval := none }
    else d
  | none => d

/-- Method `setupAutoRefresh`. -/
def setupAutoRefresh (host : Host) (d : StockDashboard) : StockDashboard :=
  let d := clearAutoRefresh d
  let id := host.setInterval d.intervals
  { d with intervals := d.intervals ++ [id], autoRefreshInterval := some id }

/-- Method `initializeCharts`: both charts start with no labels and no data. -/
def initializeCharts (d : StockDashboard) : StockDashboard :=
  { d with
    portfolioChart := some { labels := [], data := [] }
    marketChart := some { labels := [], data := [] } }

/-- Method `loadMarketIndices`. -/
def loadMarketIndices (d : StockDashboard) : StockDashboard :=
  { d with indicesGrid :=
      [ { name := "S&P 500", value := "4,567.89", change := "+1.23%", changeClass := "positive" },
        { name := "NASDAQ", value := "14,234.56", change := "+0.87%", changeClass := "positive" },
        { name := "DOW JONES", value := "34,567.12", change := "-0.45%",
          changeClass := "negative" },
        { name := "RUSSELL 2000", value := "2,123.45", change := "+2.10%",
          changeClass := "positive" } ] }

/-- Method `init`.  `setupEventListeners` only registers the handlers, which are `handle` below.
`loadInitialStocks` is called second but not awaited: it runs up to its first `await`, that is
through the fetch of the first symbol, and its remaining body runs once `init` has returned,
before any event.  What it does before the `await` and what `setupAutoRefresh`,
`initializeCharts` and `loadMarketIndices` do touch different parts of the state, so the run is
the one below, with `loadInitialStocks` as a whole in last place. -/
def init (host : Host) (d : StockDashboard) : StockDashboard :=
  let d := setupAutoRefresh host d
  let d := initializeCharts d
  let d := loadMarketIndices d
  loadInitialStocks host d

/-- The symbols the constructor puts in `this.stocks`. -/
def defaultStocks : List String :=
  ["AAPL", "GOOGL", "MSFT", "TSLA", "AMZN"]

/-- The constructor, called once the page has loaded: the dashboard after `new
StockDashboard()`. -/
def new (host : Host) : StockDashboard :=
  init host
    { stocks := defaultStocks
      stockData := []
      autoRefreshInterval := none
      portfolioChart := none
      marketChart := none
      stockInput := ""
      stockGrid := []
      indicesGrid := []
      loadingOverlay := false
      lastUpdated := none
      messages := []
      autoRefresh := host.autoRefreshChecked
      hidden := false
      intervals := []
      randomCalls := 0
      dateCalls := 0 }

/-- What can happen to the page once the dashboard exists. -/
inductive Event where
  /-- The user leaves the given text in the input field. -/
  | input (value : String)
  /-- A click on the add button, or the Enter key in the input field. -/
  | addStock
  /-- A call `dashboard.removeStock(symbol)`, as the remove button of a card makes. -/
  | removeStock (symbol : String)
  /-- A click on the refresh button. -/
  | refreshAll
  /-- The user sets the auto refresh checkbox. -/
  | autoRefreshChange (checked : Bool)
  /-- The page becomes hidden or visible. -/
  | visibilityChange (hidden : Bool)
  /-- The interval timer with the given handle fires, if it is live. -/
  | interval (id : ℕ)

/-- The handlers registered by `setupEventListeners`, the `visibilitychange` handler at the end
of the script, and the callback given to `setInterval`. -/
def handle (host : Host) (d : StockDashboard) : Event → StockDashboard
  | .input value => { d with stockInput := value }
  | .addStock => addStock host d
  | .removeStock symbol => removeStock host d symbol
  | .refreshAll => refreshAllStocks host d
  | .autoRefreshChange checked =>
    let d := { d with autoRefresh := checked }
    if checked then setupAutoRefresh host d else clearAutoRefresh d
  | .visibilityChange hidden =>
    let d := { d with hidden := hidden }
    if hidden then clearAutoRefresh d
    else if d.autoRefresh then setupAutoRefresh host d
    else d
  | .interval id => if id ∈ d.intervals then refreshAllStocks host d else d

/-- The dashboard after the constructor and the given events, in order. -/
def run (host : Host) (events : List Event) : StockDashboard :=
  events.foldl (handle host) (new host)

/-- The states the dashboard can be in. -/
def Reachable (host : Host) (d : StockDashboard) : Prop :=
  ∃ events, d = run host events

/-- Properties that hold of the dashboard after the constructor and are kept by every
handler. -/
structure Invariant (host : Host) (d : StockDashboard) : Prop where
  /-- No symbol is tracked twice. -/
  nodup : d.stocks.Nodup
  /-- The keys of the quotes are the tracked symbols, in the same order. -/
  keys : Map.keys d.stockData = d.stocks
  /-- A quote is stored under its own symbol. -/
  symbol : ∀ e ∈ d.stockData, e.2.symbol = e.1
  /-- The doughnut chart shows the quotes. -/
  portfolio : d.portfolioChart =
    some { labels := d.stockData.map (fun e => e.1)
           data := d.stockData.map (fun e => parseFloat e.2.price) }
  /-- The line chart exists. -/
  market : d.marketChart.isSome = true
  /-- The live interval timers are the one in `autoRefreshInterval`, if any. -/
  timers : d.intervals = d.autoRefreshInterval.toList
  /-- The handle in `autoRefreshInterval` is not 0. -/
  handle : ∀ id, d.autoRefreshInterval = some id → id ≠ 0
  /-- A tracked symbol is one of the first five or was produced by `addStock`. -/
  origin : ∀ x ∈ d.stocks, x ∈ defaultStocks ∨ ∃ input, x = host.toUpperCase (trim input)

end StockDashboard

/-! ## Numbers: rounding -/

namespace JS

theorem roundTiesToEven_sub_le (q : ℚ) : |(roundTiesToEven q : ℚ) - q| ≤ 1 / 2 := by
  have h1 := Int.floor_le q
  have h2 := Int.lt_floor_add_one q
  unfold roundTiesToEven
  split_ifs with ha hb hc
  · rw [abs_le]; constructor <;> linarith
  · rw [abs_le]; push_cast; constructor <;> linarith
  · rw [abs_le]; constructor <;> linarith
  · rw [abs_le]; push_cast; constructor <;> linarith

theorem roundTiesToEven_intCast (z : ℤ) : roundTiesToEven (z : ℚ) = z := by
  unfold roundTiesToEven
  simp

theorem binary64_sub_le (x : ℚ) : |binary64 x - x| ≤ 2 ^ ulpExponent x / 2 := by
  have hu : (0 : ℚ) < 2 ^ ulpExponent x := by positivity
  have h := roundTiesToEven_sub_le (x / 2 ^ ulpExponent x)
  unfold binary64
  have e : (roundTiesToEven (x / 2 ^ ulpExponent x) : ℚ) * 2 ^ ulpExponent x - x
      = ((roundTiesToEven (x / 2 ^ ulpExponent x) : ℚ) - x / 2 ^ ulpExponent x)
        * 2 ^ ulpExponent x := by
    field_simp
  rw [e, abs_mul, abs_of_pos hu]
  calc |(roundTiesToEven (x / 2 ^ ulpExponent x) : ℚ) - x / 2 ^ ulpExponent x|
        * 2 ^ ulpExponent x
      ≤ 1 / 2 * 2 ^ ulpExponent x := mul_le_mul_of_nonneg_right h hu.le
    _ = 2 ^ ulpExponent x / 2 := by ring

theorem ulpExponent_le {x : ℚ} (hx : 0 < x) (h : x < 2 ^ 34) : ulpExponent x ≤ -19 := by
  have hlog : Int.log 2 |x| < 34 := by
    rw [abs_of_pos hx]
    exact (Int.lt_zpow_iff_log_lt (by norm_num) hx).1 (by exact_mod_cast h)
  unfold ulpExponent
  omega

/-- Below `2 ^ 34` the binary64 numbers are less than a millionth apart. -/
theorem binary64_close {x : ℚ} (hx : 0 < x) (h : x < 2 ^ 34) :
    |binary64 x - x| < 1 / 1000000 := by
  have h1 := binary64_sub_le x
  have h2 : (2 : ℚ) ^ ulpExponent x ≤ 2 ^ (-19 : ℤ) :=
    zpow_le_zpow_right₀ (by norm_num) (ulpExponent_le hx h)
  have h3 : (2 : ℚ) ^ (-19 : ℤ) / 2 < 1 / 1000000 := by norm_num
  have h4 : (2 : ℚ) ^ ulpExponent x / 2 ≤ 2 ^ (-19 : ℤ) / 2 :=
    div_le_div_of_nonneg_right h2 (by norm_num)
  exact lt_of_le_of_lt (h1.trans h4) h3

theorem ulpExponent_eq {x : ℚ} (e : ℤ) (he : -1022 ≤ e) (h1 : (2 : ℚ) ^ e ≤ |x|)
    (h2 : |x| < (2 : ℚ) ^ (e + 1)) : ulpExponent x = e - 52 := by
  have hpos : (0 : ℚ) < |x| := lt_of_lt_of_le (by positivity) h1
  have a : e ≤ Int.log 2 |x| :=
    (Int.zpow_le_iff_le_log (by norm_num) hpos).1 (by exact_mod_cast h1)
  have b : Int.log 2 |x| < e + 1 :=
    (Int.lt_zpow_iff_log_lt (by norm_num) hpos).1 (by exact_mod_cast h2)
  unfold ulpExponent
  omega

/-- Evaluation of `binary64` from the binade of the argument and the rounded significand. -/
theorem binary64_eq {x : ℚ} (e : ℤ) (m : ℤ) (he : -1022 ≤ e) (h1 : (2 : ℚ) ^ e ≤ |x|)
    (h2 : |x| < (2 : ℚ) ^ (e + 1)) (hm : roundTiesToEven (x / 2 ^ (e - 52)) = m) :
    binary64 x = m * 2 ^ (e - 52) := by
  unfold binary64
  rw [ulpExponent_eq e he h1 h2, hm]

theorem toFixed_of_nonneg {x : ℚ} (f m : ℕ) (h0 : 0 ≤ x) (h1 : (m : ℚ) ≤ x * 10 ^ f + 1 / 2)
    (h2 : x * 10 ^ f + 1 / 2 < m + 1) : toFixed x f = ⟨false, m, f⟩ := by
  have hneg : decide (x < 0) = false := by simpa using h0
  have hfl : ⌊|x| * 10 ^ f + 1 / 2⌋₊ = m := by
    rw [abs_of_nonneg h0, Nat.floor_eq_iff (by positivity)]
    exact ⟨h1, h2⟩
  simp only [toFixed, hneg, hfl]

theorem padStart_digit : ∀ k < 10, padStart (Nat.repr k) 1 '0' = Nat.repr k := by
  decide

theorem toFixed_one_toString (y : ℚ) (hy : 0 ≤ y) :
    (toFixed y 1).toString =
      Nat.repr (⌊|y| * 10 ^ 1 + 1 / 2⌋₊ / 10) ++ "." ++
        Nat.repr (⌊|y| * 10 ^ 1 + 1 / 2⌋₊ % 10) := by
  have hneg : decide (y < 0) = false := by simpa using hy
  simp only [toFixed, Fixed.toString, hneg]
  generalize ⌊|y| * 10 ^ 1 + 1 / 2⌋₊ = m
  have hp := padStart_digit (m % 10) (Nat.mod_lt _ (by norm_num))
  simp only [hp, String.append_assoc, String.empty_append,
    Bool.false_eq_true, if_false, one_ne_zero, pow_one]

/-- Rounding to tenths a value within `1 / (20 c)` of `n / (20 c)` gives a tenth nearest to
`n / (20 c)`. -/
theorem tenths_nearest (n c : ℕ) (y : ℚ) (hc : 0 < c) (hn : 20 * c ≤ n)
    (hy : |y - (n : ℚ) / ((20 * c : ℕ) : ℚ)| < 1 / ((20 * c : ℕ) : ℚ)) :
    2 * (⌊|y| * 10 ^ 1 + 1 / 2⌋₊ * (20 * c)) ≤ 20 * n + 20 * c ∧
      20 * n ≤ 2 * (⌊|y| * 10 ^ 1 + 1 / 2⌋₊ * (20 * c)) + 20 * c := by
  have hd : (0 : ℚ) < ((20 * c : ℕ) : ℚ) := by exact_mod_cast (by omega : 0 < 20 * c)
  have hx1 : (1 : ℚ) ≤ (n : ℚ) / ((20 * c : ℕ) : ℚ) := by
    rw [le_div_iff₀ hd]; exact_mod_cast (by omega : 1 * (20 * c) ≤ n)
  have hinv : 1 / ((20 * c : ℕ) : ℚ) ≤ 1 := by
    rw [div_le_iff₀ hd]; exact_mod_cast (by omega : 1 ≤ 1 * (20 * c))
  rw [abs_lt] at hy
  have hy0 : 0 ≤ y := by linarith
  rw [abs_of_nonneg hy0]
  set m := ⌊y * 10 ^ 1 + 1 / 2⌋₊ with hm
  have hnn : (0 : ℚ) ≤ y * 10 ^ 1 + 1 / 2 := by positivity
  have hlo : (m : ℚ) ≤ y * 10 ^ 1 + 1 / 2 := Nat.floor_le hnn
  have hhi : y * 10 ^ 1 + 1 / 2 < (m : ℚ) + 1 := Nat.lt_floor_add_one _
  have hyd1 : y * ((20 * c : ℕ) : ℚ) < n + 1 := by
    have := mul_lt_mul_of_pos_right hy.2 hd
    have e : ((n : ℚ) / ((20 * c : ℕ) : ℚ) + 1 / ((20 * c : ℕ) : ℚ)) * ((20 * c : ℕ) : ℚ)
        = n + 1 := by
      field_simp
    linarith
  have hyd2 : (n : ℚ) - 1 < y * ((20 * c : ℕ) : ℚ) := by
    have := mul_lt_mul_of_pos_right hy.1 hd
    have e : (-(1 / ((20 * c : ℕ) : ℚ))) * ((20 * c : ℕ) : ℚ) = -1 := by
      field_simp
    have e2 : ((n : ℚ) / ((20 * c : ℕ) : ℚ)) * ((20 * c : ℕ) : ℚ) = n := by
      field_simp
    linarith
  have a1 : (m : ℚ) * ((20 * c : ℕ) : ℚ) ≤ (y * 10 ^ 1 + 1 / 2) * ((20 * c : ℕ) : ℚ) :=
    mul_le_mul_of_nonneg_right hlo hd.le
  have a2 : (y * 10 ^ 1 + 1 / 2) * ((20 * c : ℕ) : ℚ) < ((m : ℚ) + 1) * ((20 * c : ℕ) : ℚ) :=
    mul_lt_mul_of_pos_right hhi hd
  have b1 : ((2 * (m * c) : ℕ) : ℚ) < ((n + 1 + c : ℕ) : ℚ) := by
    push_cast at a1 hyd1 ⊢
    nlinarith
  have b2 : ((n : ℕ) : ℚ) < ((2 * (m * c) + c + 1 : ℕ) : ℚ) := by
    push_cast at a2 hyd2 ⊢
    nlinarith
  have c1 : 2 * (m * c) < n + 1 + c := by exact_mod_cast b1
  have c2 : n < 2 * (m * c) + c + 1 := by exact_mod_cast b2
  have e3 : m * (20 * c) = 20 * (m * c) := by ring
  rw [e3]
  omega

end JS

/-! ## `formatNumber` -/

namespace StockDashboard

theorem formatNumber_thousands (n : ℕ) (h1 : 1000 ≤ n) (h2 : n < 1000000) :
    ∃ m : ℕ, 2 * (m * 1000) ≤ 20 * n + 1000 ∧ 20 * n ≤ 2 * (m * 1000) + 1000 ∧
      formatNumber n = Nat.repr (m / 10) ++ "." ++ Nat.repr (m % 10) ++ "K" := by
  have hx0 : (0 : ℚ) < (n : ℚ) / 1000 := by
    have : (0 : ℚ) < n := by exact_mod_cast (by omega : 0 < n)
    positivity
  have hx1 : (n : ℚ) / 1000 < 2 ^ 34 := by
    rw [div_lt_iff₀ (by norm_num)]
    have : (n : ℚ) < 1000000 := by exact_mod_cast h2
    norm_num; linarith
  have hc := binary64_close hx0 hx1
  have hc2 : |binary64 ((n : ℚ) / 1000) - (n : ℚ) / ((20 * 50 : ℕ) : ℚ)|
      < 1 / ((20 * 50 : ℕ) : ℚ) := by
    norm_num at hc ⊢
    exact lt_trans hc (by norm_num)
  have hge : (1 : ℚ) ≤ (n : ℚ) / 1000 := by
    rw [le_div_iff₀ (by norm_num)]
    have : (1000 : ℚ) ≤ n := by exact_mod_cast h1
    linarith
  have hy0 : 0 ≤ binary64 ((n : ℚ) / 1000) := by
    rw [abs_lt] at hc; linarith [hc.1]
  obtain ⟨k1, k2⟩ := tenths_nearest n 50 _ (by norm_num) (by omega) hc2
  refine ⟨_, k1, k2, ?_⟩
  simp only [formatNumber, show ¬ n ≥ 1000000 by omega, show n ≥ 1000 from h1, if_true,
    if_false]
  rw [toFixed_one_toString _ hy0]

theorem formatNumber_millions (n : ℕ) (h1 : 1000000 ≤ n) (hn : n ≤ 2 ^ 53) :
    ∃ m : ℕ, 2 * (m * 1000000) ≤ 20 * n + 1000000 ∧ 20 * n ≤ 2 * (m * 1000000) + 1000000 ∧
      formatNumber n = Nat.repr (m / 10) ++ "." ++ Nat.repr (m % 10) ++ "M" := by
  have hx0 : (0 : ℚ) < (n : ℚ) / 1000000 := by
    have : (0 : ℚ) < n := by exact_mod_cast (by omega : 0 < n)
    positivity
  have hx1 : (n : ℚ) / 1000000 < 2 ^ 34 := by
    rw [div_lt_iff₀ (by norm_num)]
    have : (n : ℚ) ≤ 2 ^ 53 := by exact_mod_cast hn
    norm_num at this ⊢; linarith
  have hc := binary64_close hx0 hx1
  have hc2 : |binary64 ((n : ℚ) / 1000000) - (n : ℚ) / ((20 * 50000 : ℕ) : ℚ)|
      < 1 / ((20 * 50000 : ℕ) : ℚ) := by
    norm_num at hc ⊢
    exact hc
  have hge : (1 : ℚ) ≤ (n : ℚ) / 1000000 := by
    rw [le_div_iff₀ (by norm_num)]
    have : (1000000 : ℚ) ≤ n := by exact_mod_cast h1
    linarith
  have hy0 : 0 ≤ binary64 ((n : ℚ) / 1000000) := by
    rw [abs_lt] at hc; linarith [hc.1]
  obtain ⟨k1, k2⟩ := tenths_nearest n 50000 _ (by norm_num) (by omega) hc2
  refine ⟨_, k1, k2, ?_⟩
  simp only [formatNumber, show n ≥ 1000000 from h1, if_true]
  rw [toFixed_one_toString _ hy0]

/-- Evaluation of `formatNumber` in the millions from the rounded quotient. -/
theorem formatNumber_millions_eq (n : ℕ) (e m : ℤ) (k : ℕ) (h : 1000000 ≤ n)
    (he : -1022 ≤ e) (h1 : (2 : ℚ) ^ e ≤ |(n : ℚ) / 1000000|)
    (h2 : |(n : ℚ) / 1000000| < (2 : ℚ) ^ (e + 1))
    (hm : roundTiesToEven ((n : ℚ) / 1000000 / 2 ^ (e - 52)) = m)
    (h0 : (0 : ℚ) ≤ m * 2 ^ (e - 52))
    (k1 : (k : ℚ) ≤ m * 2 ^ (e - 52) * 10 ^ 1 + 1 / 2)
    (k2 : (m : ℚ) * 2 ^ (e - 52) * 10 ^ 1 + 1 / 2 < k + 1) :
    formatNumber n = (Fixed.mk false k 1).toString ++ "M" := by
  simp only [formatNumber, show n ≥ 1000000 from h, if_true]
  rw [binary64_eq e m he h1 h2 hm, toFixed_of_nonneg 1 k h0 k1 k2]

/-- Evaluation of `formatNumber` in the thousands from the rounded quotient. -/
theorem formatNumber_thousands_eq (n : ℕ) (e m : ℤ) (k : ℕ) (h : 1000 ≤ n) (h' : n < 1000000)
    (he : -1022 ≤ e) (h1 : (2 : ℚ) ^ e ≤ |(n : ℚ) / 1000|)
    (h2 : |(n : ℚ) / 1000| < (2 : ℚ) ^ (e + 1))
    (hm : roundTiesToEven ((n : ℚ) / 1000 / 2 ^ (e - 52)) = m)
    (h0 : (0 : ℚ) ≤ m * 2 ^ (e - 52))
    (k1 : (k : ℚ) ≤ m * 2 ^ (e - 52) * 10 ^ 1 + 1 / 2)
    (k2 : (m : ℚ) * 2 ^ (e - 52) * 10 ^ 1 + 1 / 2 < k + 1) :
    formatNumber n = (Fixed.mk false k 1).toString ++ "K" := by
  simp only [formatNumber, show ¬ n ≥ 1000000 by omega, show n ≥ 1000 from h, if_true,
    if_false]
  rw [binary64_eq e m he h1 h2 hm, toFixed_of_nonneg 1 k h0 k1 k2]

theorem formatNumber_1500 : formatNumber 1500 = "1.5K" := by
  rw [formatNumber_thousands_eq 1500 0 6755399441055744 15 (by norm_num) (by norm_num)
    (by norm_num) (by norm_num [abs_of_pos]) (by norm_num [abs_of_pos])
    (by norm_num [roundTiesToEven]) (by norm_num) (by norm_num) (by norm_num)]
  decide

theorem formatNumber_2300000 : formatNumber 2300000 = "2.3M" := by
  rw [formatNumber_millions_eq 2300000 1 5179139571476070 23 (by norm_num)
    (by norm_num) (by norm_num [abs_of_pos]) (by norm_num [abs_of_pos])
    (by norm_num [roundTiesToEven]) (by norm_num) (by norm_num) (by norm_num)]
  decide

theorem formatNumber_1150 : formatNumber 1150 = "1.1K" := by
  rw [formatNumber_thousands_eq 1150 0 5179139571476070 11 (by norm_num) (by norm_num)
    (by norm_num) (by norm_num [abs_of_pos]) (by norm_num [abs_of_pos])
    (by norm_num [roundTiesToEven]) (by norm_num) (by norm_num) (by norm_num)]
  decide

theorem formatNumber_large :
    formatNumber 288230376152249984 = "288230376152.3M" := by
  rw [formatNumber_millions_eq 288230376152249984 38 4722366482878464 2882303761523
    (by norm_num) (by norm_num) (by norm_num [abs_of_pos]) (by norm_num [abs_of_pos])
    (by norm_num [roundTiesToEven]) (by norm_num) (by norm_num) (by norm_num)]
  decide

end StockDashboard

namespace JS

theorem floor_le_roundTiesToEven (q : ℚ) : ⌊q⌋ ≤ roundTiesToEven q := by
  unfold roundTiesToEven
  split_ifs <;> omega

theorem roundTiesToEven_le_floor_add_one (q : ℚ) : roundTiesToEven q ≤ ⌊q⌋ + 1 := by
  unfold roundTiesToEven
  split_ifs <;> omega

theorem roundTiesToEven_mono {q r : ℚ} (h : q ≤ r) : roundTiesToEven q ≤ roundTiesToEven r := by
  have hf : ⌊q⌋ ≤ ⌊r⌋ := Int.floor_le_floor h
  rcases lt_or_eq_of_le hf with hlt | heq
  · have h1 := roundTiesToEven_le_floor_add_one q
    have h2 := floor_le_roundTiesToEven r
    omega
  · unfold roundTiesToEven
    rw [← heq]
    split_ifs <;> first | omega | (exfalso; linarith)

theorem roundTiesToEven_nonneg {q : ℚ} (h : 0 ≤ q) : 0 ≤ roundTiesToEven q := by
  have := roundTiesToEven_mono h
  rwa [show (0 : ℚ) = ((0 : ℤ) : ℚ) by norm_num, roundTiesToEven_intCast] at this

theorem binary64_nonneg {x : ℚ} (h : 0 ≤ x) : 0 ≤ binary64 x := by
  unfold binary64
  have h1 : (0 : ℚ) ≤ x / 2 ^ ulpExponent x := by positivity
  have h2 : (0 : ℚ) ≤ (roundTiesToEven (x / 2 ^ ulpExponent x) : ℚ) := by
    exact_mod_cast roundTiesToEven_nonneg h1
  positivity

/-- A multiple of the spacing around it is a binary64 number. -/
theorem binary64_of_multiple (x : ℚ) (N : ℤ) (h : x = N * 2 ^ ulpExponent x) :
    binary64 x = x := by
  have hu : (2 : ℚ) ^ ulpExponent x ≠ 0 := by positivity
  have e : x / 2 ^ ulpExponent x = (N : ℚ) := by
    rw [div_eq_iff hu]; exact h
  unfold binary64
  rw [e, roundTiesToEven_intCast]
  exact h.symm

theorem lt_two_zpow_ulpExponent {x : ℚ} (hx : 0 < x) : x < 2 ^ (ulpExponent x + 53) := by
  have h1 : x < (2 : ℚ) ^ (Int.log 2 x + 1) := by
    exact_mod_cast Int.lt_zpow_succ_log_self (by norm_num : 1 < 2) x
  have h2 : (2 : ℚ) ^ (Int.log 2 x + 1) ≤ 2 ^ (ulpExponent x + 53) := by
    apply zpow_le_zpow_right₀ (by norm_num)
    unfold ulpExponent
    rw [abs_of_pos hx]
    omega
  exact lt_of_lt_of_le h1 h2

theorem binary64_le_two_zpow {x : ℚ} (hx : 0 < x) : binary64 x ≤ 2 ^ (ulpExponent x + 53) := by
  have hu : (0 : ℚ) < 2 ^ ulpExponent x := by positivity
  have h1 : x / 2 ^ ulpExponent x ≤ ((2 ^ 53 : ℤ) : ℚ) := by
    rw [div_le_iff₀ hu]
    have := lt_two_zpow_ulpExponent hx
    rw [zpow_add₀ (by norm_num)] at this
    push_cast
    have e : (2 : ℚ) ^ (53 : ℤ) = 2 ^ 53 := by norm_num
    rw [e] at this
    linarith
  have h2 := roundTiesToEven_mono h1
  rw [roundTiesToEven_intCast] at h2
  have h3 : (roundTiesToEven (x / 2 ^ ulpExponent x) : ℚ) ≤ ((2 ^ 53 : ℤ) : ℚ) := by
    exact_mod_cast h2
  unfold binary64
  rw [zpow_add₀ (by norm_num), mul_comm ((2 : ℚ) ^ ulpExponent x)]
  have e : (2 : ℚ) ^ (53 : ℤ) = ((2 ^ 53 : ℤ) : ℚ) := by norm_num
  rw [e]
  exact mul_le_mul_of_nonneg_right h3 hu.le

theorem two_zpow_le_binary64 {x : ℚ} (hx : 0 < x) (hn : -1022 ≤ Int.log 2 x) :
    2 ^ (ulpExponent x + 52) ≤ binary64 x := by
  have hu : (0 : ℚ) < 2 ^ ulpExponent x := by positivity
  have hue : ulpExponent x + 52 = Int.log 2 x := by
    unfold ulpExponent
    rw [abs_of_pos hx]
    omega
  have h0 : (2 : ℚ) ^ (ulpExponent x + 52) ≤ x := by
    rw [hue]
    exact_mod_cast Int.zpow_log_le_self (by norm_num : 1 < 2) hx
  have h1 : ((2 ^ 52 : ℤ) : ℚ) ≤ x / 2 ^ ulpExponent x := by
    rw [le_div_iff₀ hu]
    rw [zpow_add₀ (by norm_num)] at h0
    have e : (2 : ℚ) ^ (52 : ℤ) = ((2 ^ 52 : ℤ) : ℚ) := by norm_num
    rw [e] at h0
    linarith
  have h2 := roundTiesToEven_mono h1
  rw [roundTiesToEven_intCast] at h2
  have h3 : ((2 ^ 52 : ℤ) : ℚ) ≤ (roundTiesToEven (x / 2 ^ ulpExponent x) : ℚ) := by
    exact_mod_cast h2
  unfold binary64
  rw [zpow_add₀ (by norm_num), mul_comm ((2 : ℚ) ^ ulpExponent x)]
  have e : (2 : ℚ) ^ (52 : ℤ) = ((2 ^ 52 : ℤ) : ℚ) := by norm_num
  rw [e]
  exact mul_le_mul_of_nonneg_right h3 hu.le

theorem ulpExponent_mono {x y : ℚ} (hx : 0 < x) (h : x ≤ y) : ulpExponent x ≤ ulpExponent y := by
  have := Int.log_mono_right (b := 2) hx h
  unfold ulpExponent
  rw [abs_of_pos hx, abs_of_pos (lt_of_lt_of_le hx h)]
  omega

/-- Rounding to binary64 is monotone on the positive rationals. -/
theorem binary64_mono {x y : ℚ} (hx : 0 < x) (h : x ≤ y) : binary64 x ≤ binary64 y := by
  have hy : 0 < y := lt_of_lt_of_le hx h
  rcases lt_or_eq_of_le (ulpExponent_mono hx h) with hlt | heq
  · have hlog : -1022 ≤ Int.log 2 y := by
      have h1 : -1074 ≤ ulpExponent x := by unfold ulpExponent; omega
      unfold ulpExponent at hlt
      rw [abs_of_pos hy] at hlt
      omega
    have a := binary64_le_two_zpow hx
    have b := two_zpow_le_binary64 hy hlog
    have c : (2 : ℚ) ^ (ulpExponent x + 53) ≤ 2 ^ (ulpExponent y + 52) :=
      zpow_le_zpow_right₀ (by norm_num) (by omega)
    linarith
  · have hu : (0 : ℚ) < 2 ^ ulpExponent y := by positivity
    unfold binary64
    rw [heq]
    have h1 : x / 2 ^ ulpExponent y ≤ y / 2 ^ ulpExponent y :=
      div_le_div_of_nonneg_right h hu.le
    have h2 : (roundTiesToEven (x / 2 ^ ulpExponent y) : ℚ)
        ≤ (roundTiesToEven (y / 2 ^ ulpExponent y) : ℚ) := by
      exact_mod_cast roundTiesToEven_mono h1
    exact mul_le_mul_of_nonneg_right h2 hu.le

end JS

namespace JS

/-- An integer multiple of a power of two that is at least the spacing is a binary64 number. -/
theorem binary64_of_scaled (x : ℚ) (m j : ℤ) (hx : x = m * 2 ^ j) (hj : ulpExponent x ≤ j) :
    binary64 x = x := by
  apply binary64_of_multiple x (m * 2 ^ (j - ulpExponent x).toNat)
  have e : (j - ulpExponent x).toNat = j - ulpExponent x := Int.toNat_of_nonneg (by omega)
  have e2 : ((2 : ℚ) ^ (j - ulpExponent x).toNat) = (2 : ℚ) ^ (j - ulpExponent x) := by
    rw [← zpow_natCast, e]
  push_cast
  rw [e2, mul_assoc, ← zpow_add₀ (by norm_num : (2 : ℚ) ≠ 0)]
  rw [show j - ulpExponent x + ulpExponent x = j by ring]
  exact hx

theorem binary64_zero : binary64 0 = 0 :=
  binary64_of_multiple 0 0 (by simp)

/-- A dyadic rational with a significand below `2 ^ 53` is a binary64 number. -/
theorem binary64_dyadic (m : ℤ) (k : ℕ) (hm : |m| < 2 ^ 53) (hk : k ≤ 1074) :
    binary64 ((m : ℚ) / 2 ^ k) = (m : ℚ) / 2 ^ k := by
  by_cases h0 : m = 0
  · subst h0; simpa using binary64_zero
  have hx : (m : ℚ) / 2 ^ k = m * 2 ^ (-(k : ℤ)) := by
    rw [zpow_neg, zpow_natCast, div_eq_mul_inv]
  apply binary64_of_scaled _ m (-(k : ℤ)) hx
  have hpos : (0 : ℚ) < |(m : ℚ) / 2 ^ k| := by
    apply abs_pos.2
    have : (m : ℚ) ≠ 0 := by exact_mod_cast h0
    positivity
  have hlt : |(m : ℚ) / 2 ^ k| < (2 : ℚ) ^ (53 - (k : ℤ)) := by
    rw [abs_div, abs_of_pos (by positivity : (0 : ℚ) < 2 ^ k), zpow_sub₀ (by norm_num),
      zpow_natCast]
    apply div_lt_div_of_pos_right _ (by positivity)
    exact_mod_cast hm
  have hlog : Int.log 2 |(m : ℚ) / 2 ^ k| < 53 - (k : ℤ) :=
    (Int.lt_zpow_iff_log_lt (by norm_num) hpos).1 (by exact_mod_cast hlt)
  unfold ulpExponent
  omega

theorem binary64_natCast (n : ℕ) (hn : n < 2 ^ 53) : binary64 (n : ℚ) = n := by
  have := binary64_dyadic (n : ℤ) 0 (by rw [abs_of_nonneg (by positivity)]; exact_mod_cast hn)
    (by norm_num)
  simpa using this

/-- Rounding twice is rounding once. -/
theorem binary64_idem {x : ℚ} (hx : 0 < x) : binary64 (binary64 x) = binary64 x := by
  have hu : (0 : ℚ) < 2 ^ ulpExponent x := by positivity
  have hM0 : 0 ≤ roundTiesToEven (x / 2 ^ ulpExponent x) :=
    roundTiesToEven_nonneg (by positivity)
  have hle := binary64_le_two_zpow hx
  have hdef : binary64 x = (roundTiesToEven (x / 2 ^ ulpExponent x) : ℚ) * 2 ^ ulpExponent x :=
    rfl
  rcases eq_or_lt_of_le hle with heq | hlt
  · -- the result is the power of two that starts the next binade
    rw [heq]
    apply binary64_of_scaled _ 1 (ulpExponent x + 53) (by simp)
    have hl : Int.log 2 |(2 : ℚ) ^ (ulpExponent x + 53)| = ulpExponent x + 53 := by
      rw [abs_of_pos (by positivity)]
      exact_mod_cast Int.log_zpow (R := ℚ) (by norm_num : 1 < 2) (ulpExponent x + 53)
    have h1 : -1074 ≤ ulpExponent x := by unfold ulpExponent; omega
    have h2 : ulpExponent ((2 : ℚ) ^ (ulpExponent x + 53))
        = max (Int.log 2 |(2 : ℚ) ^ (ulpExponent x + 53)|) (-1022) - 52 := rfl
    rw [hl] at h2
    omega
  · rcases eq_or_lt_of_le (binary64_nonneg hx.le) with h0 | hpos
    · rw [← h0]; exact binary64_zero
    · apply binary64_of_scaled _ (roundTiesToEven (x / 2 ^ ulpExponent x)) (ulpExponent x) hdef
      have hlog : Int.log 2 |binary64 x| < ulpExponent x + 53 := by
        rw [abs_of_pos hpos]
        exact (Int.lt_zpow_iff_log_lt (by norm_num) hpos).1 (by exact_mod_cast hlt)
      have h1 : -1074 ≤ ulpExponent x := by unfold ulpExponent; omega
      have h2 : ulpExponent (binary64 x) = max (Int.log 2 |binary64 x|) (-1022) - 52 := rfl
      omega

theorem binary64_mono_nonneg {x y : ℚ} (hx : 0 ≤ x) (h : x ≤ y) : binary64 x ≤ binary64 y := by
  rcases eq_or_lt_of_le hx with h0 | hpos
  · rw [← h0, binary64_zero]; exact binary64_nonneg (hx.trans h)
  · exact binary64_mono hpos h

end JS

namespace JS

theorem toFixed_value_of_nonneg {x : ℚ} (f : ℕ) (h : 0 ≤ x) :
    (toFixed x f).value = (⌊x * 10 ^ f + 1 / 2⌋₊ : ℚ) / 10 ^ f := by
  have hneg : decide (x < 0) = false := by simpa using h
  simp [toFixed, Fixed.value, hneg, abs_of_nonneg h]

/-- On non-negative numbers `toFixed` preserves the order. -/
theorem toFixed_value_mono {x y : ℚ} (f : ℕ) (hx : 0 ≤ x) (h : x ≤ y) :
    (toFixed x f).value ≤ (toFixed y f).value := by
  rw [toFixed_value_of_nonneg f hx, toFixed_value_of_nonneg f (hx.trans h)]
  apply div_le_div_of_nonneg_right _ (by positivity)
  have : x * 10 ^ f + 1 / 2 ≤ y * 10 ^ f + 1 / 2 := by
    have : x * 10 ^ f ≤ y * 10 ^ f := mul_le_mul_of_nonneg_right h (by positivity)
    linarith
  exact_mod_cast Nat.floor_le_floor this

end JS

namespace JS

/-- Evaluation of `binary64` where the exact result is a dyadic rational: the result is
exact. -/
theorem binary64_exact {x y : ℚ} (m : ℤ) (k : ℕ) (hm : |m| < 2 ^ 53) (hk : k ≤ 1074)
    (hx : x = (m : ℚ) / 2 ^ k ∧ y = (m : ℚ) / 2 ^ k) : binary64 x = y := by
  rw [hx.1, hx.2]
  exact binary64_dyadic m k hm hk

end JS

namespace StockDashboard

/-- Helper for the quote: the low is at most the price and the price at most the high. -/
theorem mockStockData_low_le_price_le_high (symbol : String) (r : ℕ → ℚ) (time : ℤ)
    (hr : ∀ i, 0 ≤ r i ∧ r i < 1) :
    (mockStockData symbol r time).low.value ≤ (mockStockData symbol r time).price.value ∧
      (mockStockData symbol r time).price.value ≤ (mockStockData symbol r time).high.value := by
  have h50 : binary64 50 = 50 := by
    simpa using binary64_natCast 50 (by norm_num)
  have h10 : binary64 10 = 10 := by
    simpa using binary64_natCast 10 (by norm_num)
  have hA : 0 ≤ binary64 (r 0 * 200) :=
    binary64_nonneg (mul_nonneg (hr 0).1 (by norm_num))
  have hbp : 50 ≤ binary64 (binary64 (r 0 * 200) + 50) := by
    have := binary64_mono_nonneg (x := 50) (y := binary64 (r 0 * 200) + 50) (by norm_num)
      (by linarith)
    rwa [h50] at this
  have hidem : binary64 (binary64 (binary64 (r 0 * 200) + 50))
      = binary64 (binary64 (r 0 * 200) + 50) :=
    binary64_idem (by linarith)
  have hZ3 : 0 ≤ binary64 (r 3 * 10) := binary64_nonneg (mul_nonneg (hr 3).1 (by norm_num))
  have hZ4 : 0 ≤ binary64 (r 4 * 10) := binary64_nonneg (mul_nonneg (hr 4).1 (by norm_num))
  have hZ4' : binary64 (r 4 * 10) ≤ 10 := by
    have := binary64_mono_nonneg (x := r 4 * 10) (y := 10) (mul_nonneg (hr 4).1 (by norm_num))
      (by linarith [(hr 4).2])
    rwa [h10] at this
  have hhigh : binary64 (binary64 (r 0 * 200) + 50)
      ≤ binary64 (binary64 (binary64 (r 0 * 200) + 50) + binary64 (r 3 * 10)) := by
    have := binary64_mono_nonneg (x := binary64 (binary64 (r 0 * 200) + 50))
      (y := binary64 (binary64 (r 0 * 200) + 50) + binary64 (r 3 * 10)) (by linarith)
      (by linarith)
    rwa [hidem] at this
  have hlow : binary64 (binary64 (binary64 (r 0 * 200) + 50) - binary64 (r 4 * 10))
      ≤ binary64 (binary64 (r 0 * 200) + 50) := by
    have := binary64_mono_nonneg
      (x := binary64 (binary64 (r 0 * 200) + 50) - binary64 (r 4 * 10))
      (y := binary64 (binary64 (r 0 * 200) + 50)) (by linarith) (by linarith)
    rwa [hidem] at this
  have hlow0 : 0 ≤ binary64 (binary64 (binary64 (r 0 * 200) + 50) - binary64 (r 4 * 10)) :=
    binary64_nonneg (by linarith)
  exact ⟨toFixed_value_mono 2 hlow0 hlow, toFixed_value_mono 2 (by linarith) hhigh⟩

theorem mockStockData_high_lt_open :
    (mockStockData "AAPL" exampleDraws 0).high.value
      < (mockStockData "AAPL" exampleDraws 0).open_.value := by
  have a : (mockStockData "AAPL" exampleDraws 0).high
      = ⟨false, 5000, 2⟩ := by
    simp only [mockStockData, exampleDraws]
    norm_num only [if_true, if_false]
    rw [binary64_zero,
      show binary64 ((0 : ℚ) + 50) = 50 from binary64_exact 50 0 (by norm_num) (by norm_num)
        (by norm_num),
      show binary64 ((50 : ℚ) + 0) = 50 from binary64_exact 50 0 (by norm_num) (by norm_num)
        (by norm_num)]
    exact toFixed_of_nonneg 2 5000 (by norm_num) (by norm_num) (by norm_num)
  have b : (mockStockData "AAPL" exampleDraws 0).open_
      = ⟨false, 5125, 2⟩ := by
    simp only [mockStockData, exampleDraws]
    norm_num only [if_true, if_false]
    rw [binary64_zero,
      show binary64 ((0 : ℚ) + 50) = 50 from binary64_exact 50 0 (by norm_num) (by norm_num)
        (by norm_num),
      show binary64 ((1 : ℚ) / 4) = 1 / 4 from binary64_exact 1 2 (by norm_num)
        (by norm_num) (by norm_num),
      show binary64 ((1 : ℚ) / 4 * 5) = 5 / 4 from binary64_exact 5 2 (by norm_num)
        (by norm_num) (by norm_num),
      show binary64 ((50 : ℚ) + 5 / 4) = 205 / 4 from binary64_exact 205 2 (by norm_num)
        (by norm_num) (by norm_num)]
    exact toFixed_of_nonneg 2 5125 (by norm_num) (by norm_num) (by norm_num)
  rw [a, b]
  norm_num [Fixed.value]

theorem exampleDraws_range (i : ℕ) : 0 ≤ exampleDraws i ∧ exampleDraws i < 1 := by
  unfold exampleDraws
  split_ifs <;> norm_num

theorem mockStockData_open_lt_low :
    (mockStockData "AAPL" (fun _ => 0) 0).open_.value
      < (mockStockData "AAPL" (fun _ => 0) 0).low.value := by
  have a : (mockStockData "AAPL" (fun _ => 0) 0).low = ⟨false, 5000, 2⟩ := by
    simp only [mockStockData]
    rw [show binary64 ((0 : ℚ) * 200) = 0 from binary64_exact 0 0 (by norm_num) (by norm_num)
        (by norm_num),
      show binary64 ((0 : ℚ) * 10) = 0 from binary64_exact 0 0 (by norm_num) (by norm_num)
        (by norm_num),
      show binary64 ((0 : ℚ) + 50) = 50 from binary64_exact 50 0 (by norm_num) (by norm_num)
        (by norm_num),
      show binary64 ((50 : ℚ) - 0) = 50 from binary64_exact 50 0 (by norm_num) (by norm_num)
        (by norm_num)]
    exact toFixed_of_nonneg 2 5000 (by norm_num) (by norm_num) (by norm_num)
  have b : (mockStockData "AAPL" (fun _ => 0) 0).open_ = ⟨false, 4750, 2⟩ := by
    simp only [mockStockData]
    rw [show binary64 ((0 : ℚ) * 200) = 0 from binary64_exact 0 0 (by norm_num) (by norm_num)
        (by norm_num),
      show binary64 ((0 : ℚ) + 50) = 50 from binary64_exact 50 0 (by norm_num) (by norm_num)
        (by norm_num),
      show binary64 ((0 : ℚ) - 1 / 2) = -(1 / 2) from binary64_exact (-1) 1 (by norm_num)
        (by norm_num) (by norm_num),
      show binary64 (-((1 : ℚ) / 2) * 5) = -(5 / 2) from binary64_exact (-5) 1 (by norm_num)
        (by norm_num) (by norm_num),
      show binary64 ((50 : ℚ) + -(5 / 2)) = 95 / 2 from binary64_exact 95 1 (by norm_num)
        (by norm_num) (by norm_num)]
    exact toFixed_of_nonneg 2 4750 (by norm_num) (by norm_num) (by norm_num)
  rw [a, b]
  norm_num [Fixed.value]

end StockDashboard

/-! ## `Map` -/

namespace JS

theorem Map.set_of_not_mem {β : Type} {m : Map β} {k : String} (v : β) (h : k ∉ Map.keys m) :
    Map.set m k v = m ++ [(k, v)] := by
  induction m with
  | nil => rfl
  | cons a t ih =>
    simp only [Map.keys, List.map_cons, List.mem_cons, not_or] at h
    have hak : ¬ a.1 = k := fun e => h.1 e.symm
    simp only [Map.set, hak, if_false, List.cons_append]
    rw [ih h.2]

theorem Map.keys_set_of_mem {β : Type} {m : Map β} {k : String} (v : β) (h : k ∈ Map.keys m) :
    Map.keys (Map.set m k v) = Map.keys m := by
  induction m with
  | nil => simp [Map.keys] at h
  | cons a t ih =>
    by_cases hak : a.1 = k
    · simp [Map.set, Map.keys, hak]
    · simp only [Map.keys, List.map_cons, List.mem_cons] at h
      have ht : k ∈ Map.keys t := by
        rcases h with h | h
        · exact absurd h.symm hak
        · exact h
      have := ih ht
      simp only [Map.keys] at this
      simp [Map.set, Map.keys, hak, this]

theorem Map.keys_set_of_not_mem {β : Type} {m : Map β} {k : String} (v : β)
    (h : k ∉ Map.keys m) : Map.keys (Map.set m k v) = Map.keys m ++ [k] := by
  simp [Map.set_of_not_mem v h, Map.keys]

theorem Map.mem_set {β : Type} {m : Map β} {k : String} {v : β} {e : String × β}
    (h : e ∈ Map.set m k v) : e = (k, v) ∨ e ∈ m := by
  induction m with
  | nil => left; simpa [Map.set] using h
  | cons a t ih =>
    by_cases hak : a.1 = k
    · simp only [Map.set, hak, if_true, List.mem_cons] at h
      rcases h with h | h
      · exact Or.inl h
      · exact Or.inr (List.mem_cons_of_mem _ h)
    · simp only [Map.set, hak, if_false, List.mem_cons] at h
      rcases h with h | h
      · right; rw [h]; exact List.mem_cons_self _ _
      · rcases ih h with h | h
        · exact Or.inl h
        · exact Or.inr (List.mem_cons_of_mem _ h)

theorem Map.get_set_self {β : Type} (m : Map β) (k : String) (v : β) :
    Map.get (Map.set m k v) k = some v := by
  induction m with
  | nil => simp [Map.set, Map.get]
  | cons a t ih =>
    by_cases hak : a.1 = k
    · simp [Map.set, Map.get, hak]
    · simp [Map.set, Map.get, hak, ih]

theorem Map.get_set_of_ne {β : Type} (m : Map β) {k k' : String} (v : β) (h : k' ≠ k) :
    Map.get (Map.set m k v) k' = Map.get m k' := by
  induction m with
  | nil => simp [Map.set, Map.get, h.symm]
  | cons a t ih =>
    by_cases hak : a.1 = k
    · have : ¬ a.1 = k' := by rw [hak]; exact fun e => h e.symm
      simp [Map.set, Map.get, hak, this, h.symm]
    · by_cases hak' : a.1 = k'
      · simp [Map.set, Map.get, hak, hak', h]
      · simp [Map.set, Map.get, hak, hak', ih]

theorem Map.get_eq_some {β : Type} {m : Map β} {k : String} {v : β}
    (h : Map.get m k = some v) : (k, v) ∈ m := by
  induction m with
  | nil => simp [Map.get] at h
  | cons a t ih =>
    by_cases hak : a.1 = k
    · simp only [Map.get, hak, if_true, Option.some.injEq] at h
      have : a = (k, v) := by
        cases a; simp_all
      rw [this]; exact List.mem_cons_self _ _
    · simp only [Map.get, hak, if_false] at h
      exact List.mem_cons_of_mem _ (ih h)

theorem Map.get_isSome_of_mem_keys {β : Type} {m : Map β} {k : String}
    (h : k ∈ Map.keys m) : ∃ v, Map.get m k = some v := by
  induction m with
  | nil => simp [Map.keys] at h
  | cons a t ih =>
    by_cases hak : a.1 = k
    · exact ⟨a.2, by simp [Map.get, hak]⟩
    · have ht : k ∈ Map.keys t := by
        simp only [Map.keys, List.map_cons, List.mem_cons] at h ⊢
        rcases h with h | h
        · exact absurd h.symm hak
        · exact h
      obtain ⟨v, hv⟩ := ih ht
      exact ⟨v, by simpa [Map.get, hak] using hv⟩

theorem Map.mem_keys_of_get {β : Type} {m : Map β} {k : String} {v : β}
    (h : Map.get m k = some v) : k ∈ Map.keys m := by
  have := Map.get_eq_some h
  simp only [Map.keys, List.mem_map]
  exact ⟨(k, v), this, rfl⟩

theorem Map.keys_delete {β : Type} (m : Map β) (k : String) :
    Map.keys (Map.delete m k) = (Map.keys m).filter (fun x => x != k) := by
  simp only [Map.keys, Map.delete, List.filter_map]
  rfl

theorem Map.delete_cons_of_eq {β : Type} (a : String × β) (t : Map β) {k : String}
    (h : a.1 = k) : Map.delete (a :: t) k = Map.delete t k := by
  simp [Map.delete, List.filter_cons, h]

theorem Map.delete_cons_of_ne {β : Type} (a : String × β) (t : Map β) {k : String}
    (h : ¬ a.1 = k) : Map.delete (a :: t) k = a :: Map.delete t k := by
  simp [Map.delete, List.filter_cons, h]

theorem Map.get_delete_self {β : Type} (m : Map β) (k : String) :
    Map.get (Map.delete m k) k = none := by
  induction m with
  | nil => rfl
  | cons a t ih =>
    by_cases hak : a.1 = k
    · rw [Map.delete_cons_of_eq a t hak]; exact ih
    · rw [Map.delete_cons_of_ne a t hak]; simpa [Map.get, hak] using ih

theorem Map.get_delete_of_ne {β : Type} (m : Map β) {k k' : String} (h : k' ≠ k) :
    Map.get (Map.delete m k) k' = Map.get m k' := by
  induction m with
  | nil => rfl
  | cons a t ih =>
    by_cases hak : a.1 = k
    · have : ¬ a.1 = k' := by rw [hak]; exact fun e => h e.symm
      rw [Map.delete_cons_of_eq a t hak]
      simpa [Map.get, this] using ih
    · rw [Map.delete_cons_of_ne a t hak]
      by_cases hak' : a.1 = k'
      · simp [Map.get, hak']
      · simpa [Map.get, hak'] using ih

theorem indexOf_of_mem {xs : List String} {x : String} (h : x ∈ xs) :
    indexOf xs x = (xs.indexOf x : ℤ) := by
  simp [indexOf, h]

theorem indexOf_of_not_mem {xs : List String} {x : String} (h : x ∉ xs) :
    indexOf xs x = -1 := by
  simp [indexOf, h]

end JS

/-! ## The methods, field by field -/

namespace StockDashboard

theorem fetchStockData_snd (host : Host) (d : StockDashboard) (s : String) :
    (fetchStockData host d s).2 =
      { d with
        stockData := Map.set d.stockData s
          (mockStockData s (fun i => host.random (d.randomCalls + i)) (host.now d.dateCalls))
        randomCalls := d.randomCalls + 8
        dateCalls := d.dateCalls + 1 } :=
  rfl

theorem mockStockData_symbol (s : String) (r : ℕ → ℚ) (t : ℤ) :
    (mockStockData s r t).symbol = s :=
  rfl

@[simp] theorem updateCharts_stocks (host : Host) (d : StockDashboard) :
    (updateCharts host d).stocks = d.stocks := by
  unfold updateCharts; split <;> rfl

@[simp] theorem updateCharts_stockData (host : Host) (d : StockDashboard) :
    (updateCharts host d).stockData = d.stockData := by
  unfold updateCharts; split <;> rfl

@[simp] theorem updateCharts_intervals (host : Host) (d : StockDashboard) :
    (updateCharts host d).intervals = d.intervals := by
  unfold updateCharts; split <;> rfl

@[simp] theorem updateCharts_autoRefreshInterval (host : Host) (d : StockDashboard) :
    (updateCharts host d).autoRefreshInterval = d.autoRefreshInterval := by
  unfold updateCharts; split <;> rfl

@[simp] theorem updateCharts_stockInput (host : Host) (d : StockDashboard) :
    (updateCharts host d).stockInput = d.stockInput := by
  unfold updateCharts; split <;> rfl

@[simp] theorem updateCharts_messages (host : Host) (d : StockDashboard) :
    (updateCharts host d).messages = d.messages := by
  unfold updateCharts; split <;> rfl

@[simp] theorem updateCharts_stockGrid (host : Host) (d : StockDashboard) :
    (updateCharts host d).stockGrid = d.stockGrid := by
  unfold updateCharts; split <;> rfl

theorem updateCharts_randomCalls_ge (host : Host) (d : StockDashboard) :
    d.randomCalls ≤ (updateCharts host d).randomCalls := by
  unfold updateCharts; split
  · exact Nat.le_add_right _ _
  · exact le_rfl

theorem updateCharts_portfolioChart (host : Host) (d : StockDashboard)
    (h1 : d.portfolioChart.isSome) (h2 : d.marketChart.isSome) :
    (updateCharts host d).portfolioChart =
      some { labels := d.stockData.map (fun e => e.1)
             data := d.stockData.map (fun e => parseFloat e.2.price) } := by
  obtain ⟨p, hp⟩ := Option.isSome_iff_exists.1 h1
  obtain ⟨m, hm⟩ := Option.isSome_iff_exists.1 h2
  unfold updateCharts
  rw [hp, hm]

theorem updateCharts_marketChart_isSome (host : Host) (d : StockDashboard)
    (h2 : d.marketChart.isSome) : (updateCharts host d).marketChart.isSome := by
  unfold updateCharts
  split
  · rfl
  · exact h2

/-! ### The loop over the tracked symbols -/

theorem fetchLoop_frame (host : Host) (l : List String) (d : StockDashboard) :
    (l.foldl (fun d symbol => (fetchStockData host d symbol).2) d).stocks = d.stocks ∧
    (l.foldl (fun d symbol => (fetchStockData host d symbol).2) d).autoRefreshInterval
      = d.autoRefreshInterval ∧
    (l.foldl (fun d symbol => (fetchStockData host d symbol).2) d).portfolioChart
      = d.portfolioChart ∧
    (l.foldl (fun d symbol => (fetchStockData host d symbol).2) d).marketChart
      = d.marketChart ∧
    (l.foldl (fun d symbol => (fetchStockData host d symbol).2) d).intervals = d.intervals ∧
    (l.foldl (fun d symbol => (fetchStockData host d symbol).2) d).messages = d.messages ∧
    (l.foldl (fun d symbol => (fetchStockData host d symbol).2) d).stockInput
      = d.stockInput ∧
    (l.foldl (fun d symbol => (fetchStockData host d symbol).2) d).randomCalls
      = d.randomCalls + 8 * l.length := by
  induction l generalizing d with
  | nil => simp
  | cons a t ih =>
    simp only [List.foldl_cons, List.length_cons]
    obtain ⟨h1, h2, h3, h4, h5, h6, h7, h8⟩ := ih (fetchStockData host d a).2
    refine ⟨h1, h2, h3, h4, h5, h6, h7, ?_⟩
    rw [h8, fetchStockData_snd]
    simp only
    omega

theorem fetchLoop_keys_of_subset (host : Host) (l : List String) (d : StockDashboard)
    (h : ∀ s ∈ l, s ∈ Map.keys d.stockData) :
    Map.keys (l.foldl (fun d symbol => (fetchStockData host d symbol).2) d).stockData
      = Map.keys d.stockData := by
  induction l generalizing d with
  | nil => rfl
  | cons a t ih =>
    simp only [List.foldl_cons]
    have h1 : Map.keys (fetchStockData host d a).2.stockData = Map.keys d.stockData := by
      rw [fetchStockData_snd]
      exact Map.keys_set_of_mem _ (h a (List.mem_cons_self _ _))
    rw [ih, h1]
    intro s hs
    rw [h1]
    exact h s (List.mem_cons_of_mem _ hs)

theorem fetchLoop_mem_keys (host : Host) (l : List String) (d : StockDashboard) (k : String) :
    k ∈ Map.keys (l.foldl (fun d symbol => (fetchStockData host d symbol).2) d).stockData
      ↔ k ∈ Map.keys d.stockData ∨ k ∈ l := by
  induction l generalizing d with
  | nil => simp
  | cons a t ih =>
    simp only [List.foldl_cons, List.mem_cons]
    rw [ih, fetchStockData_snd]
    simp only
    by_cases ha : a ∈ Map.keys d.stockData
    · rw [Map.keys_set_of_mem _ ha]
      constructor
      · rintro (h | h)
        · exact Or.inl h
        · exact Or.inr (Or.inr h)
      · rintro (h | h | h)
        · exact Or.inl h
        · exact Or.inl (h ▸ ha)
        · exact Or.inr h
    · rw [Map.keys_set_of_not_mem _ ha, List.mem_append, List.mem_singleton]
      tauto

theorem fetchLoop_keys_prefix (host : Host) (l : List String) (d : StockDashboard) :
    Map.keys d.stockData <+:
      Map.keys (l.foldl (fun d symbol => (fetchStockData host d symbol).2) d).stockData := by
  induction l generalizing d with
  | nil => exact List.prefix_refl _
  | cons a t ih =>
    simp only [List.foldl_cons]
    refine List.IsPrefix.trans ?_ (ih _)
    rw [fetchStockData_snd]
    simp only
    by_cases ha : a ∈ Map.keys d.stockData
    · rw [Map.keys_set_of_mem _ ha]
    · rw [Map.keys_set_of_not_mem _ ha]
      exact List.prefix_append _ _

theorem fetchLoop_symbol (host : Host) (l : List String) (d : StockDashboard)
    (h : ∀ e ∈ d.stockData, e.2.symbol = e.1) :
    ∀ e ∈ (l.foldl (fun d symbol => (fetchStockData host d symbol).2) d).stockData,
      e.2.symbol = e.1 := by
  induction l generalizing d with
  | nil => exact h
  | cons a t ih =>
    simp only [List.foldl_cons]
    apply ih
    intro e he
    rw [fetchStockData_snd] at he
    rcases Map.mem_set he with he | he
    · rw [he]; rfl
    · exact h e he

theorem fetchLoop_get_of_not_mem (host : Host) (l : List String) (d : StockDashboard)
    (s : String) (h : s ∉ l) :
    Map.get (l.foldl (fun d symbol => (fetchStockData host d symbol).2) d).stockData s
      = Map.get d.stockData s := by
  induction l generalizing d with
  | nil => rfl
  | cons a t ih =>
    simp only [List.foldl_cons]
    simp only [List.mem_cons, not_or] at h
    rw [ih _ h.2, fetchStockData_snd]
    exact Map.get_set_of_ne _ _ h.1

/-- After the loop every symbol of the list has a quote generated during the loop. -/
theorem fetchLoop_get_of_mem (host : Host) (l : List String) (d : StockDashboard)
    (s : String) (h : s ∈ l) :
    ∃ k t, d.randomCalls ≤ k ∧
      k + 8 ≤ (l.foldl (fun d symbol => (fetchStockData host d symbol).2) d).randomCalls ∧
      Map.get (l.foldl (fun d symbol => (fetchStockData host d symbol).2) d).stockData s
        = some (mockStockData s (fun i => host.random (k + i)) t) := by
  induction l generalizing d with
  | nil => simp at h
  | cons a t ih =>
    simp only [List.foldl_cons]
    by_cases hs : s ∈ t
    · obtain ⟨k, u, h1, h2, h3⟩ := ih (fetchStockData host d a).2 hs
      refine ⟨k, u, ?_, h2, h3⟩
      rw [fetchStockData_snd] at h1
      simp only at h1
      omega
    · have hsa : s = a := by
        rcases List.mem_cons.1 h with h | h
        · exact h
        · exact absurd h hs
      subst hsa
      refine ⟨d.randomCalls, host.now d.dateCalls, le_rfl, ?_, ?_⟩
      · rw [(fetchLoop_frame host t _).2.2.2.2.2.2.2, fetchStockData_snd]
        simp only
        omega
      · rw [fetchLoop_get_of_not_mem host t _ s hs, fetchStockData_snd]
        exact Map.get_set_self _ _ _

end StockDashboard

/-! ## `addStock`, `removeStock`, `refreshAllStocks` -/

namespace StockDashboard

theorem addStock_of_empty (host : Host) (d : StockDashboard)
    (h : host.toUpperCase (trim d.stockInput) = "") :
    addStock host d = showMessage d "Please enter a stock symbol" "error" := by
  simp [addStock, h]

theorem addStock_of_mem (host : Host) (d : StockDashboard)
    (h1 : host.toUpperCase (trim d.stockInput) ≠ "")
    (h2 : host.toUpperCase (trim d.stockInput) ∈ d.stocks) :
    addStock host d = showMessage d "Stock already added to dashboard" "error" := by
  simp [addStock, h1, h2]

/-- The fields of the dashboard after `addStock` has accepted the symbol. -/
theorem addStock_of_accept (host : Host) (d : StockDashboard)
    (h1 : host.toUpperCase (trim d.stockInput) ≠ "")
    (h2 : host.toUpperCase (trim d.stockInput) ∉ d.stocks) :
    (addStock host d).stocks = d.stocks ++ [host.toUpperCase (trim d.stockInput)] ∧
    (addStock host d).stockData = Map.set d.stockData (host.toUpperCase (trim d.stockInput))
      (mockStockData (host.toUpperCase (trim d.stockInput))
        (fun i => host.random (d.randomCalls + i)) (host.now d.dateCalls)) ∧
    (addStock host d).intervals = d.intervals ∧
    (addStock host d).autoRefreshInterval = d.autoRefreshInterval ∧
    (addStock host d).stockInput = "" ∧
    (addStock host d).messages = d.messages ++
      [{ text := host.toUpperCase (trim d.stockInput) ++ " added successfully",
         type := "success" }] := by
  simp [addStock, h1, h2, fetchStockData, generateMockStockData, showLoading, showMessage,
    updateLastUpdated, renderStockCards]

theorem addStock_charts_of_accept (host : Host) (d : StockDashboard)
    (h1 : host.toUpperCase (trim d.stockInput) ≠ "")
    (h2 : host.toUpperCase (trim d.stockInput) ∉ d.stocks)
    (hp : d.portfolioChart.isSome) (hm : d.marketChart.isSome) :
    (addStock host d).portfolioChart =
      some { labels := (addStock host d).stockData.map (fun e => e.1)
             data := (addStock host d).stockData.map (fun e => parseFloat e.2.price) } ∧
    (addStock host d).marketChart.isSome := by
  rw [(addStock_of_accept host d h1 h2).2.1]
  simp only [addStock, h1, h2, if_false, fetchStockData, if_true, showLoading, showMessage,
    updateLastUpdated]
  constructor
  · rw [updateCharts_portfolioChart]
    · rfl
    · exact hp
    · exact hm
  · exact updateCharts_marketChart_isSome _ _ hm

end StockDashboard

namespace StockDashboard

theorem removeStock_of_not_mem (host : Host) (d : StockDashboard) (symbol : String)
    (h : symbol ∉ d.stocks) : removeStock host d symbol = d := by
  simp [removeStock, indexOf_of_not_mem h]

/-- The fields of the dashboard after `removeStock` has found the symbol. -/
theorem removeStock_of_mem (host : Host) (d : StockDashboard) (symbol : String)
    (h : symbol ∈ d.stocks) :
    (removeStock host d symbol).stocks = d.stocks.erase symbol ∧
    (removeStock host d symbol).stockData = Map.delete d.stockData symbol ∧
    (removeStock host d symbol).intervals = d.intervals ∧
    (removeStock host d symbol).autoRefreshInterval = d.autoRefreshInterval ∧
    (removeStock host d symbol).stockInput = d.stockInput ∧
    (removeStock host d symbol).messages = d.messages ++
      [{ text := symbol ++ " removed from dashboard", type := "success" }] := by
  have hi : indexOf d.stocks symbol > -1 := by
    rw [indexOf_of_mem h]
    have : (0 : ℤ) ≤ (List.indexOf symbol d.stocks : ℤ) := Int.natCast_nonneg _
    omega
  simp only [removeStock, hi, if_true]
  simp [showMessage, renderStockCards, indexOf_of_mem h]

theorem removeStock_charts_of_mem (host : Host) (d : StockDashboard) (symbol : String)
    (h : symbol ∈ d.stocks) (hp : d.portfolioChart.isSome) (hm : d.marketChart.isSome) :
    (removeStock host d symbol).portfolioChart =
      some { labels := (removeStock host d symbol).stockData.map (fun e => e.1)
             data := (removeStock host d symbol).stockData.map
               (fun e => parseFloat e.2.price) } ∧
    (removeStock host d symbol).marketChart.isSome := by
  have hi : indexOf d.stocks symbol > -1 := by
    rw [indexOf_of_mem h]
    have : (0 : ℤ) ≤ (List.indexOf symbol d.stocks : ℤ) := Int.natCast_nonneg _
    omega
  rw [(removeStock_of_mem host d symbol h).2.1]
  simp only [removeStock, hi, if_true, showMessage]
  constructor
  · rw [updateCharts_portfolioChart]
    · rfl
    · exact hp
    · exact hm
  · exact updateCharts_marketChart_isSome _ _ hm

/-- The fields of the dashboard after `refreshAllStocks`. -/
theorem refreshAllStocks_fields (host : Host) (d : StockDashboard) :
    (refreshAllStocks host d).stocks = d.stocks ∧
    (refreshAllStocks host d).stockData =
      (d.stocks.foldl (fun d symbol => (fetchStockData host d symbol).2)
        (showLoading d true)).stockData ∧
    (refreshAllStocks host d).intervals = d.intervals ∧
    (refreshAllStocks host d).autoRefreshInterval = d.autoRefreshInterval ∧
    (refreshAllStocks host d).stockInput = d.stockInput ∧
    (refreshAllStocks host d).messages = d.messages ++
      [{ text := "All stocks refreshed successfully", type := "success" }] := by
  obtain ⟨f1, f2, f3, f4, f5, f6, f7, f8⟩ :=
    fetchLoop_frame host d.stocks (showLoading d true)
  simp only [refreshAllStocks, showMessage, updateLastUpdated, showLoading, renderStockCards,
    updateCharts_stocks, updateCharts_stockData, updateCharts_intervals,
    updateCharts_autoRefreshInterval, updateCharts_stockInput, updateCharts_messages]
  simp only [showLoading] at f1 f2 f5 f6 f7
  exact ⟨f1, trivial, f5, f2, f7, by rw [f6]⟩

theorem refreshAllStocks_charts (host : Host) (d : StockDashboard)
    (hp : d.portfolioChart.isSome) (hm : d.marketChart.isSome) :
    (refreshAllStocks host d).portfolioChart =
      some { labels := (refreshAllStocks host d).stockData.map (fun e => e.1)
             data := (refreshAllStocks host d).stockData.map
               (fun e => parseFloat e.2.price) } ∧
    (refreshAllStocks host d).marketChart.isSome := by
  obtain ⟨f1, f2, f3, f4, f5, f6, f7, f8⟩ :=
    fetchLoop_frame host d.stocks (showLoading d true)
  rw [(refreshAllStocks_fields host d).2.1]
  simp only [refreshAllStocks, showMessage, updateLastUpdated, showLoading] at f3 f4 ⊢
  constructor
  · rw [updateCharts_portfolioChart]
    · rfl
    · simp only [renderStockCards]; rw [f3]; exact hp
    · simp only [renderStockCards]; rw [f4]; exact hm
  · apply updateCharts_marketChart_isSome
    simp only [renderStockCards]; rw [f4]; exact hm

end StockDashboard

/-! ## The timer -/

namespace StockDashboard

theorem clearAutoRefresh_data (d : StockDashboard) :
    (clearAutoRefresh d).stocks = d.stocks ∧
    (clearAutoRefresh d).stockData = d.stockData ∧
    (clearAutoRefresh d).portfolioChart = d.portfolioChart ∧
    (clearAutoRefresh d).marketChart = d.marketChart ∧
    (clearAutoRefresh d).stockInput = d.stockInput := by
  unfold clearAutoRefresh
  split
  · split_ifs <;> simp
  · simp

theorem setupAutoRefresh_data (host : Host) (d : StockDashboard) :
    (setupAutoRefresh host d).stocks = d.stocks ∧
    (setupAutoRefresh host d).stockData = d.stockData ∧
    (setupAutoRefresh host d).portfolioChart = d.portfolioChart ∧
    (setupAutoRefresh host d).marketChart = d.marketChart ∧
    (setupAutoRefresh host d).stockInput = d.stockInput := by
  obtain ⟨h1, h2, h3, h4, h5⟩ := clearAutoRefresh_data d
  simp only [setupAutoRefresh]
  exact ⟨h1, h2, h3, h4, h5⟩

/-- With the timer invariant, `clearAutoRefresh` leaves no live timer and no handle. -/
theorem clearAutoRefresh_timers (d : StockDashboard)
    (h1 : d.intervals = d.autoRefreshInterval.toList)
    (h2 : ∀ id, d.autoRefreshInterval = some id → id ≠ 0) :
    (clearAutoRefresh d).intervals = [] ∧ (clearAutoRefresh d).autoRefreshInterval = none := by
  unfold clearAutoRefresh
  split
  · rename_i id hid
    have hne : id ≠ 0 := h2 id hid
    rw [hid] at h1
    simp [hne, h1]
  · rename_i hid
    rw [hid] at h1
    simp [h1, hid]

/-- With the timer invariant, `setupAutoRefresh` leaves exactly the new timer live. -/
theorem setupAutoRefresh_timers (host : Host) (d : StockDashboard)
    (h1 : d.intervals = d.autoRefreshInterval.toList)
    (h2 : ∀ id, d.autoRefreshInterval = some id → id ≠ 0) :
    (setupAutoRefresh host d).intervals = [host.setInterval []] ∧
    (setupAutoRefresh host d).autoRefreshInterval = some (host.setInterval []) := by
  obtain ⟨c1, c2⟩ := clearAutoRefresh_timers d h1 h2
  simp only [setupAutoRefresh]
  rw [c1]
  simp

end StockDashboard

/-! ## The invariant -/

namespace StockDashboard

theorem Invariant.congr {host : Host} {d d' : StockDashboard} (h : Invariant host d)
    (e1 : d'.stocks = d.stocks) (e2 : d'.stockData = d.stockData)
    (e3 : d'.portfolioChart = d.portfolioChart) (e4 : d'.marketChart = d.marketChart)
    (e5 : d'.intervals = d.intervals) (e6 : d'.autoRefreshInterval = d.autoRefreshInterval) :
    Invariant host d' where
  nodup := by rw [e1]; exact h.nodup
  keys := by rw [e1, e2]; exact h.keys
  symbol := by rw [e2]; exact h.symbol
  portfolio := by rw [e3, e2]; exact h.portfolio
  market := by rw [e4]; exact h.market
  timers := by rw [e5, e6]; exact h.timers
  handle := by rw [e6]; exact h.handle
  origin := by rw [e1]; exact h.origin

theorem Invariant.portfolio_isSome {host : Host} {d : StockDashboard} (h : Invariant host d) :
    d.portfolioChart.isSome := by
  rw [h.portfolio]; rfl

theorem Invariant.showMessage {host : Host} {d : StockDashboard} (h : Invariant host d)
    (text type : String) : Invariant host (showMessage d text type) :=
  h.congr rfl rfl rfl rfl rfl rfl

theorem Invariant.addStock {host : Host} {d : StockDashboard} (h : Invariant host d) :
    Invariant host (addStock host d) := by
  by_cases h1 : host.toUpperCase (trim d.stockInput) = ""
  · rw [addStock_of_empty host d h1]; exact h.showMessage _ _
  by_cases h2 : host.toUpperCase (trim d.stockInput) ∈ d.stocks
  · rw [addStock_of_mem host d h1 h2]; exact h.showMessage _ _
  obtain ⟨a1, a2, a3, a4, _, _⟩ := addStock_of_accept host d h1 h2
  obtain ⟨c1, c2⟩ := addStock_charts_of_accept host d h1 h2 h.portfolio_isSome h.market
  have hk : host.toUpperCase (trim d.stockInput) ∉ Map.keys d.stockData := by
    rw [h.keys]; exact h2
  exact
    { nodup := by
        rw [a1]
        exact List.Nodup.append h.nodup (List.nodup_singleton _)
          (by
            intro a ha hb
            rw [List.mem_singleton] at hb
            exact h2 (hb ▸ ha))
      keys := by rw [a1, a2, Map.keys_set_of_not_mem _ hk, h.keys]
      symbol := by
        intro e he
        rw [a2] at he
        rcases Map.mem_set he with he | he
        · rw [he]; rfl
        · exact h.symbol e he
      portfolio := c1
      market := c2
      timers := by rw [a3, a4]; exact h.timers
      handle := by rw [a4]; exact h.handle
      origin := by
        intro x hx
        rw [a1] at hx
        rcases List.mem_append.1 hx with hx | hx
        · exact h.origin x hx
        · right; exact ⟨d.stockInput, by simpa using hx⟩ }

theorem Invariant.removeStock {host : Host} {d : StockDashboard} (h : Invariant host d)
    (symbol : String) : Invariant host (removeStock host d symbol) := by
  by_cases hs : symbol ∈ d.stocks
  · obtain ⟨a1, a2, a3, a4, _, _⟩ := removeStock_of_mem host d symbol hs
    obtain ⟨c1, c2⟩ := removeStock_charts_of_mem host d symbol hs h.portfolio_isSome h.market
    exact
      { nodup := by rw [a1]; exact h.nodup.erase _
        keys := by
          rw [a1, a2, Map.keys_delete, h.keys, List.Nodup.erase_eq_filter h.nodup]
        symbol := by
          intro e he
          rw [a2] at he
          exact h.symbol e (List.mem_of_mem_filter he)
        portfolio := c1
        market := c2
        timers := by rw [a3, a4]; exact h.timers
        handle := by rw [a4]; exact h.handle
        origin := by
          intro x hx
          rw [a1] at hx
          exact h.origin x (List.mem_of_mem_erase hx) }
  · rw [removeStock_of_not_mem host d symbol hs]; exact h

theorem Invariant.refreshAllStocks {host : Host} {d : StockDashboard} (h : Invariant host d) :
    Invariant host (refreshAllStocks host d) := by
  obtain ⟨a1, a2, a3, a4, _, _⟩ := refreshAllStocks_fields host d
  obtain ⟨c1, c2⟩ := refreshAllStocks_charts host d h.portfolio_isSome h.market
  have hsub : ∀ s ∈ d.stocks, s ∈ Map.keys (showLoading d true).stockData := by
    intro s hs
    show s ∈ Map.keys d.stockData
    rw [h.keys]; exact hs
  exact
    { nodup := by rw [a1]; exact h.nodup
      keys := by
        rw [a1, a2, fetchLoop_keys_of_subset host d.stocks _ hsub]
        exact h.keys
      symbol := by
        rw [a2]
        exact fetchLoop_symbol host d.stocks _ h.symbol
      portfolio := c1
      market := c2
      timers := by rw [a3, a4]; exact h.timers
      handle := by rw [a4]; exact h.handle
      origin := by rw [a1]; exact h.origin }

theorem Invariant.clearAutoRefresh {host : Host} {d : StockDashboard} (h : Invariant host d) :
    Invariant host (clearAutoRefresh d) := by
  obtain ⟨e1, e2, e3, e4, _⟩ := clearAutoRefresh_data d
  obtain ⟨t1, t2⟩ := clearAutoRefresh_timers d h.timers h.handle
  exact
    { nodup := by rw [e1]; exact h.nodup
      keys := by rw [e1, e2]; exact h.keys
      symbol := by rw [e2]; exact h.symbol
      portfolio := by rw [e3, e2]; exact h.portfolio
      market := by rw [e4]; exact h.market
      timers := by rw [t1, t2]; rfl
      handle := by rw [t2]; intro id hid; cases hid
      origin := by rw [e1]; exact h.origin }

theorem Invariant.setupAutoRefresh {host : Host} {d : StockDashboard} (h : Invariant host d) :
    Invariant host (setupAutoRefresh host d) := by
  obtain ⟨e1, e2, e3, e4, _⟩ := setupAutoRefresh_data host d
  obtain ⟨t1, t2⟩ := setupAutoRefresh_timers host d h.timers h.handle
  exact
    { nodup := by rw [e1]; exact h.nodup
      keys := by rw [e1, e2]; exact h.keys
      symbol := by rw [e2]; exact h.symbol
      portfolio := by rw [e3, e2]; exact h.portfolio
      market := by rw [e4]; exact h.market
      timers := by rw [t1, t2]; rfl
      handle := by
        rw [t2]; intro id hid
        cases hid
        exact host.setInterval_ne_zero []
      origin := by rw [e1]; exact h.origin }

theorem Invariant.handle_event {host : Host} {d : StockDashboard} (h : Invariant host d)
    (e : Event) : Invariant host (StockDashboard.handle host d e) := by
  cases e with
  | input value => exact h.congr rfl rfl rfl rfl rfl rfl
  | addStock => exact h.addStock
  | removeStock symbol => exact h.removeStock symbol
  | refreshAll => exact h.refreshAllStocks
  | autoRefreshChange checked =>
    have h0 : Invariant host { d with autoRefresh := checked } :=
      h.congr rfl rfl rfl rfl rfl rfl
    cases checked
    · exact h0.clearAutoRefresh
    · exact h0.setupAutoRefresh
  | visibilityChange hidden =>
    have h0 : Invariant host { d with hidden := hidden } :=
      h.congr rfl rfl rfl rfl rfl rfl
    cases hidden
    · simp only [StockDashboard.handle, Bool.false_eq_true, if_false]
      split_ifs
      · exact h0.setupAutoRefresh
      · exact h0
    · exact h0.clearAutoRefresh
  | interval id =>
    simp only [StockDashboard.handle]
    split_ifs
    · exact h.refreshAllStocks
    · exact h

end StockDashboard

namespace StockDashboard

theorem fetchLoop_keys_of_fresh (host : Host) (l : List String) (d : StockDashboard)
    (hl : l.Nodup) (h : ∀ s ∈ l, s ∉ Map.keys d.stockData) :
    Map.keys (l.foldl (fun d symbol => (fetchStockData host d symbol).2) d).stockData
      = Map.keys d.stockData ++ l := by
  induction l generalizing d with
  | nil => simp
  | cons a t ih =>
    simp only [List.foldl_cons]
    have ha : a ∉ Map.keys d.stockData := h a (List.mem_cons_self _ _)
    have h1 : Map.keys (fetchStockData host d a).2.stockData = Map.keys d.stockData ++ [a] := by
      rw [fetchStockData_snd]
      exact Map.keys_set_of_not_mem _ ha
    rw [ih _ (List.nodup_cons.1 hl).2, h1]
    · simp
    · intro s hs
      rw [h1, List.mem_append, List.mem_singleton]
      rintro (h' | h')
      · exact h s (List.mem_cons_of_mem _ hs) h'
      · exact (List.nodup_cons.1 hl).1 (h' ▸ hs)

/-- The fields of the dashboard after `loadInitialStocks`. -/
theorem loadInitialStocks_fields (host : Host) (d : StockDashboard) :
    (loadInitialStocks host d).stocks = d.stocks ∧
    (loadInitialStocks host d).stockData =
      (d.stocks.foldl (fun d symbol => (fetchStockData host d symbol).2)
        (showLoading d true)).stockData ∧
    (loadInitialStocks host d).intervals = d.intervals ∧
    (loadInitialStocks host d).autoRefreshInterval = d.autoRefreshInterval := by
  obtain ⟨f1, f2, f3, f4, f5, f6, f7, f8⟩ :=
    fetchLoop_frame host d.stocks (showLoading d true)
  simp only [loadInitialStocks, updateLastUpdated, showLoading, renderStockCards,
    updateCharts_stocks, updateCharts_stockData, updateCharts_intervals,
    updateCharts_autoRefreshInterval]
  simp only [showLoading] at f1 f2 f5
  exact ⟨f1, trivial, f5, f2⟩

theorem loadInitialStocks_charts (host : Host) (d : StockDashboard)
    (hp : d.portfolioChart.isSome) (hm : d.marketChart.isSome) :
    (loadInitialStocks host d).portfolioChart =
      some { labels := (loadInitialStocks host d).stockData.map (fun e => e.1)
             data := (loadInitialStocks host d).stockData.map
               (fun e => parseFloat e.2.price) } ∧
    (loadInitialStocks host d).marketChart.isSome := by
  obtain ⟨f1, f2, f3, f4, f5, f6, f7, f8⟩ :=
    fetchLoop_frame host d.stocks (showLoading d true)
  rw [(loadInitialStocks_fields host d).2.1]
  simp only [loadInitialStocks, updateLastUpdated, showLoading] at f3 f4 ⊢
  constructor
  · rw [updateCharts_portfolioChart]
    · rfl
    · simp only [renderStockCards]; rw [f3]; exact hp
    · simp only [renderStockCards]; rw [f4]; exact hm
  · apply updateCharts_marketChart_isSome
    simp only [renderStockCards]; rw [f4]; exact hm

theorem defaultStocks_nodup : defaultStocks.Nodup := by
  decide

/-- The invariant holds after `loadInitialStocks` when it starts from the default symbols, no
quotes, both charts and a consistent timer. -/
theorem Invariant.loadInitialStocks (host : Host) (d : StockDashboard)
    (hs : d.stocks = defaultStocks) (hd : d.stockData = [])
    (hp : d.portfolioChart.isSome) (hm : d.marketChart.isSome)
    (hi : d.intervals = d.autoRefreshInterval.toList)
    (hh : ∀ id, d.autoRefreshInterval = some id → id ≠ 0) :
    Invariant host (StockDashboard.loadInitialStocks host d) := by
  obtain ⟨a1, a2, a3, a4⟩ := loadInitialStocks_fields host d
  obtain ⟨c1, c2⟩ := loadInitialStocks_charts host d hp hm
  have hfresh : ∀ s ∈ d.stocks, s ∉ Map.keys (showLoading d true).stockData := by
    intro s _ hk
    have : Map.keys (showLoading d true).stockData = [] := by
      show Map.keys d.stockData = []
      rw [hd]; rfl
    rw [this] at hk
    cases hk
  have hnd : d.stocks.Nodup := by rw [hs]; exact defaultStocks_nodup
  exact
    { nodup := by rw [a1]; exact hnd
      keys := by
        rw [a1, a2, fetchLoop_keys_of_fresh host d.stocks _ hnd hfresh]
        show Map.keys d.stockData ++ d.stocks = d.stocks
        rw [hd]; rfl
      symbol := by
        rw [a2]
        apply fetchLoop_symbol host d.stocks
        intro e he
        have : e ∈ d.stockData := he
        rw [hd] at this
        cases this
      portfolio := c1
      market := c2
      timers := by rw [a3, a4]; exact hi
      handle := by rw [a4]; exact hh
      origin := by
        intro x hx
        rw [a1, hs] at hx
        exact Or.inl hx }

/-- The invariant holds after the constructor. -/
theorem Invariant.new (host : Host) : Invariant host (StockDashboard.new host) := by
  apply Invariant.loadInitialStocks
  · rfl
  · rfl
  · rfl
  · rfl
  · rfl
  · intro id hid
    have : host.setInterval [] = id := by
      simpa [loadMarketIndices, initializeCharts, StockDashboard.setupAutoRefresh,
        StockDashboard.clearAutoRefresh] using hid
    rw [← this]
    exact host.setInterval_ne_zero []

/-- The invariant holds after the constructor and any events. -/
theorem Invariant.run (host : Host) (events : List Event) :
    Invariant host (StockDashboard.run host events) := by
  unfold StockDashboard.run
  induction events using List.reverseRecOn with
  | nil => exact Invariant.new host
  | append_singleton es e ih =>
    rw [List.foldl_append]
    exact ih.handle_event e

theorem Invariant.of_reachable {host : Host} {d : StockDashboard} (h : Reachable host d) :
    Invariant host d := by
  obtain ⟨events, rfl⟩ := h
  exact Invariant.run host events

end StockDashboard

/-! ## Strings: `trim` and the case mapping of the example host -/

namespace JS

theorem not_head_of_prefix {α : Type} (p : α → Bool) :
    ∀ (T D : List α), T <+: D → (∀ hl : 0 < D.length, ¬ p (D.get ⟨0, hl⟩) = true) →
      ∀ hl : 0 < T.length, ¬ p (T.get ⟨0, hl⟩) = true
  | [], _, _, _, hl => absurd hl (by simp)
  | a :: T, D, ⟨t, ht⟩, hD, _ => by
    subst ht
    exact hD (by simp)

theorem dropWhile_rdropWhile_dropWhile {α : Type} (p : α → Bool) (l : List α) :
    ((l.dropWhile p).rdropWhile p).dropWhile p = (l.dropWhile p).rdropWhile p := by
  rw [List.dropWhile_eq_self_iff]
  exact not_head_of_prefix p _ _ (List.rdropWhile_prefix p (l.dropWhile p))
    (fun hl => List.dropWhile_get_zero_not p l hl)

/-- A list is trimmed when stripping either end leaves it as it is. -/
theorem trimmed_of_trim {α : Type} (p : α → Bool) (l : List α) :
    ((l.dropWhile p).rdropWhile p).dropWhile p = (l.dropWhile p).rdropWhile p ∧
      ((l.dropWhile p).rdropWhile p).rdropWhile p = (l.dropWhile p).rdropWhile p :=
  ⟨dropWhile_rdropWhile_dropWhile p l, List.rdropWhile_idempotent p _⟩

theorem dropWhile_map_of_comp {α : Type} (p : α → Bool) (f : α → α) (hf : ∀ a, p (f a) = p a)
    (l : List α) : (l.map f).dropWhile p = (l.dropWhile p).map f := by
  induction l with
  | nil => rfl
  | cons a t ih =>
    simp only [List.map_cons, List.dropWhile_cons, hf]
    split
    · exact ih
    · rfl

theorem rdropWhile_map_of_comp {α : Type} (p : α → Bool) (f : α → α)
    (hf : ∀ a, p (f a) = p a) (l : List α) :
    (l.map f).rdropWhile p = (l.rdropWhile p).map f := by
  simp only [List.rdropWhile]
  rw [← List.map_reverse, dropWhile_map_of_comp p f hf, List.map_reverse]

theorem trim_trim (s : String) : trim (trim s) = trim s := by
  simp only [trim]
  rw [(trimmed_of_trim isWhiteSpace s.data).1, (trimmed_of_trim isWhiteSpace s.data).2]

theorem trim_eq_empty_of_whiteSpace (s : String) (h : ∀ c ∈ s.data, isWhiteSpace c = true) :
    trim s = "" := by
  simp only [trim]
  rw [List.dropWhile_eq_nil_iff.2 h]
  rfl

theorem toNat_ofNat_of_le : ∀ n, 65 ≤ n → n ≤ 90 → (Char.ofNat n).toNat = n := by
  intro n h1 h2
  interval_cases n <;> rfl

theorem isWhiteSpaceCode_of_letter : ∀ n, 65 ≤ n → n ≤ 122 → isWhiteSpaceCode n = false := by
  intro n h1 h2
  interval_cases n <;> rfl

end JS

theorem asciiUpper_idem (c : Char) : asciiUpper (asciiUpper c) = asciiUpper c := by
  unfold asciiUpper
  by_cases h : 97 ≤ c.toNat ∧ c.toNat ≤ 122
  · have e := toNat_ofNat_of_le (c.toNat - 32) (by omega) (by omega)
    simp only [h, and_self, if_true, e]
    rw [if_neg (by omega)]
  · simp only [h, if_false]

theorem isWhiteSpace_asciiUpper (c : Char) : isWhiteSpace (asciiUpper c) = isWhiteSpace c := by
  unfold asciiUpper
  by_cases h : 97 ≤ c.toNat ∧ c.toNat ≤ 122
  · have e := toNat_ofNat_of_le (c.toNat - 32) (by omega) (by omega)
    simp only [h, and_self, if_true, isWhiteSpace, e]
    rw [isWhiteSpaceCode_of_letter _ (by omega) (by omega),
      isWhiteSpaceCode_of_letter _ (by omega) (by omega)]
  · simp only [h, if_false]

theorem demoHost_toUpperCase_idem (s : String) :
    demoHost.toUpperCase (demoHost.toUpperCase s) = demoHost.toUpperCase s := by
  simp only [demoHost, List.map_map]
  congr 1
  apply List.map_congr_left
  intro c _
  exact asciiUpper_idem c

theorem demoHost_trim_toUpperCase (s : String) :
    trim (demoHost.toUpperCase (trim s)) = demoHost.toUpperCase (trim s) := by
  simp only [demoHost, trim]
  rw [dropWhile_map_of_comp _ _ isWhiteSpace_asciiUpper,
    rdropWhile_map_of_comp _ _ isWhiteSpace_asciiUpper,
    (trimmed_of_trim isWhiteSpace s.data).1, (trimmed_of_trim isWhiteSpace s.data).2]

/-! ## The claims -/

namespace JS

theorem Map.get_of_mem_of_nodup {β : Type} {m : Map β} (h : (Map.keys m).Nodup)
    {e : String × β} (he : e ∈ m) : Map.get m e.1 = some e.2 := by
  induction m with
  | nil => cases he
  | cons a t ih =>
    simp only [Map.keys, List.map_cons, List.nodup_cons] at h
    rcases List.mem_cons.1 he with he | he
    · subst he; simp [Map.get]
    · have hne : ¬ a.1 = e.1 := by
        intro hae
        apply h.1
        rw [hae]
        exact List.mem_map_of_mem _ he
      simp only [Map.get, hne, if_false]
      exact ih h.2 he

end JS

namespace StockDashboard

theorem refreshAllStocks_randomCalls_ge (host : Host) (d : StockDashboard) :
    (d.stocks.foldl (fun d symbol => (fetchStockData host d symbol).2)
      (showLoading d true)).randomCalls ≤ (refreshAllStocks host d).randomCalls := by
  simp only [refreshAllStocks, showMessage, updateLastUpdated, showLoading]
  exact updateCharts_randomCalls_ge host (renderStockCards _)

theorem renderStockCards_symbols {host : Host} {d : StockDashboard} (h : Invariant host d) :
    (renderStockCards d).stockGrid.map (fun c => c.symbol) = d.stocks := by
  have hget : ∀ s ∈ d.stocks, ∃ q, Map.get d.stockData s = some q ∧ q.symbol = s := by
    intro s hs
    rw [← h.keys] at hs
    obtain ⟨q, hq⟩ := Map.get_isSome_of_mem_keys hs
    exact ⟨q, hq, h.symbol _ (Map.get_eq_some hq)⟩
  simp only [renderStockCards]
  generalize d.stocks = l at hget
  induction l with
  | nil => rfl
  | cons a t ih =>
    obtain ⟨q, hq, hqs⟩ := hget a (List.mem_cons_self _ _)
    rw [List.filterMap_cons, hq]
    simp only [Option.map_some', List.map_cons]
    rw [ih (fun s hs => hget s (List.mem_cons_of_mem _ hs))]
    simp [createStockCard, hqs]

/-- Claim C1.  `addStock` rejects atomically: when the trimmed, upper-cased input is empty or
already tracked, the tracked list and the quotes are unchanged, `Math.random()` is not called,
and the dashboard as a whole changes only by one new notice, of type `error`. -/
theorem addStock_rejected (host : Host) (d : StockDashboard)
    (h : host.toUpperCase (trim d.stockInput) = "" ∨
      host.toUpperCase (trim d.stockInput) ∈ d.stocks) :
    (addStock host d).stocks = d.stocks ∧
    (addStock host d).stockData = d.stockData ∧
    (addStock host d).randomCalls = d.randomCalls ∧
    ∃ text, addStock host d =
      { d with messages := d.messages ++ [{ text := text, type := "error" }] } := by
  by_cases h1 : host.toUpperCase (trim d.stockInput) = ""
  · rw [addStock_of_empty host d h1]
    exact ⟨rfl, rfl, rfl, _, rfl⟩
  · have h2 : host.toUpperCase (trim d.stockInput) ∈ d.stocks := h.resolve_left h1
    rw [addStock_of_mem host d h1 h2]
    exact ⟨rfl, rfl, rfl, _, rfl⟩

/-- Witness for C1: the input ` aapl ` on the dashboard as constructed, where `AAPL` is
tracked. -/
theorem addStock_rejected_witness :
    (demoHost.toUpperCase (trim (run demoHost [Event.input " aapl "]).stockInput) = "" ∨
      demoHost.toUpperCase (trim (run demoHost [Event.input " aapl "]).stockInput)
        ∈ (run demoHost [Event.input " aapl "]).stocks) ∧
    (addStock demoHost (run demoHost [Event.input " aapl "])).stocks
      = (run demoHost [Event.input " aapl "]).stocks ∧
    (addStock demoHost (run demoHost [Event.input " aapl "])).stockData
      = (run demoHost [Event.input " aapl "]).stockData :=
  ⟨Or.inr (by decide),
    (addStock_rejected demoHost (run demoHost [Event.input " aapl "]) (Or.inr (by decide))).1,
    (addStock_rejected demoHost (run demoHost [Event.input " aapl "])
      (Or.inr (by decide))).2.1⟩

/-- Claim C2.  In a reachable state, when the trimmed, upper-cased input is not empty and not
tracked, `addStock` appends it to the tracked list (one element more, the earlier ones as they
were), adds exactly one entry to the quotes, keyed by the symbol and holding a quote with that
symbol, empties the input field and emits the success notice. -/
theorem addStock_accepted (host : Host) (d : StockDashboard) (hd : Reachable host d)
    (h1 : host.toUpperCase (trim d.stockInput) ≠ "")
    (h2 : host.toUpperCase (trim d.stockInput) ∉ d.stocks) :
    (addStock host d).stocks = d.stocks ++ [host.toUpperCase (trim d.stockInput)] ∧
    (addStock host d).stocks.length = d.stocks.length + 1 ∧
    (∃ q : Quote, q.symbol = host.toUpperCase (trim d.stockInput) ∧
      (addStock host d).stockData
        = d.stockData ++ [(host.toUpperCase (trim d.stockInput), q)]) ∧
    (addStock host d).stockInput = "" ∧
    (addStock host d).messages = d.messages ++
      [{ text := host.toUpperCase (trim d.stockInput) ++ " added successfully",
         type := "success" }] := by
  have hinv := Invariant.of_reachable hd
  obtain ⟨a1, a2, _, _, a5, a6⟩ := addStock_of_accept host d h1 h2
  have hk : host.toUpperCase (trim d.stockInput) ∉ Map.keys d.stockData := by
    rw [hinv.keys]; exact h2
  refine ⟨a1, by rw [a1]; simp,
    ⟨mockStockData (host.toUpperCase (trim d.stockInput))
      (fun i => host.random (d.randomCalls + i)) (host.now d.dateCalls),
      mockStockData_symbol _ _ _, ?_⟩, a5, a6⟩
  rw [a2, Map.set_of_not_mem _ hk]

/-- Witness for C2: the input ` nflx ` on the dashboard as constructed. -/
theorem addStock_accepted_witness :
    Reachable demoHost (run demoHost [Event.input " nflx "]) ∧
    demoHost.toUpperCase (trim (run demoHost [Event.input " nflx "]).stockInput) ≠ "" ∧
    demoHost.toUpperCase (trim (run demoHost [Event.input " nflx "]).stockInput)
      ∉ (run demoHost [Event.input " nflx "]).stocks ∧
    (addStock demoHost (run demoHost [Event.input " nflx "])).stocks
      = ["AAPL", "GOOGL", "MSFT", "TSLA", "AMZN", "NFLX"] ∧
    (addStock demoHost (run demoHost [Event.input " nflx "])).stockInput = "" :=
  ⟨⟨_, rfl⟩, by decide, by decide,
    (addStock_accepted demoHost (run demoHost [Event.input " nflx "]) ⟨_, rfl⟩
      (by decide) (by decide)).1,
    (addStock_accepted demoHost (run demoHost [Event.input " nflx "]) ⟨_, rfl⟩
      (by decide) (by decide)).2.2.2.1⟩

/-- Claim C3.  In a reachable state, `removeStock` of a tracked symbol takes it out of the
tracked list, the others keeping their order, deletes its quote and no other, and emits the
success notice; `removeStock` of a symbol that is not tracked changes nothing at all. -/
theorem removeStock_spec (host : Host) (d : StockDashboard) (hd : Reachable host d)
    (symbol : String) :
    (symbol ∈ d.stocks →
      (removeStock host d symbol).stocks = d.stocks.filter (fun s => s != symbol) ∧
      symbol ∉ (removeStock host d symbol).stocks ∧
      (removeStock host d symbol).stocks.length + 1 = d.stocks.length ∧
      (removeStock host d symbol).stockData = d.stockData.filter (fun e => e.1 != symbol) ∧
      Map.get (removeStock host d symbol).stockData symbol = none ∧
      (∀ k, k ≠ symbol →
        Map.get (removeStock host d symbol).stockData k = Map.get d.stockData k) ∧
      (removeStock host d symbol).messages = d.messages ++
        [{ text := symbol ++ " removed from dashboard", type := "success" }]) ∧
    (symbol ∉ d.stocks → removeStock host d symbol = d) := by
  have hinv := Invariant.of_reachable hd
  refine ⟨fun hs => ?_, removeStock_of_not_mem host d symbol⟩
  obtain ⟨a1, a2, _, _, _, a6⟩ := removeStock_of_mem host d symbol hs
  have hf : d.stocks.erase symbol = d.stocks.filter (fun s => s != symbol) :=
    List.Nodup.erase_eq_filter hinv.nodup symbol
  refine ⟨by rw [a1, hf], ?_, ?_, a2, ?_, ?_, a6⟩
  · rw [a1, hf]
    simp
  · rw [a1, List.length_erase_of_mem hs]
    have : 0 < d.stocks.length := List.length_pos_of_mem hs
    omega
  · rw [a2]; exact Map.get_delete_self _ _
  · intro k hk
    rw [a2]; exact Map.get_delete_of_ne _ hk

/-- Witness for C3: removing `MSFT` from the dashboard as constructed. -/
theorem removeStock_spec_witness :
    Reachable demoHost (run demoHost []) ∧
    "MSFT" ∈ (run demoHost []).stocks ∧
    (removeStock demoHost (run demoHost []) "MSFT").stocks = ["AAPL", "GOOGL", "TSLA", "AMZN"] ∧
    Map.get (removeStock demoHost (run demoHost []) "MSFT").stockData "MSFT" = none :=
  ⟨⟨_, rfl⟩, by decide,
    ((removeStock_spec demoHost (run demoHost []) ⟨_, rfl⟩ "MSFT").1 (by decide)).1,
    ((removeStock_spec demoHost (run demoHost []) ⟨_, rfl⟩ "MSFT").1 (by decide)).2.2.2.2.1⟩

/-- Claim C4.  In every reachable state the tracked list has no repeated element.  Every
element `addStock` adds is the upper-cased trimmed input; so when upper-casing twice is
upper-casing once and upper-casing puts no white space at the ends of a trimmed string, every
element `addStock` adds equals its own trimmed, upper-cased form, and every tracked symbol is one
of the five the constructor starts with or equals that form. -/
theorem stocks_nodup (host : Host) (d : StockDashboard) (hd : Reachable host d) :
    d.stocks.Nodup ∧
    (∀ x ∈ (addStock host d).stocks, x ∉ d.stocks → x = host.toUpperCase (trim d.stockInput)) ∧
    ((∀ s, host.toUpperCase (host.toUpperCase s) = host.toUpperCase s) →
      (∀ s, trim (host.toUpperCase (trim s)) = host.toUpperCase (trim s)) →
      (∀ x ∈ (addStock host d).stocks, x ∉ d.stocks → host.toUpperCase (trim x) = x) ∧
      (∀ x ∈ d.stocks, x ∈ defaultStocks ∨ host.toUpperCase (trim x) = x)) := by
  have hinv := Invariant.of_reachable hd
  have hadd : ∀ x ∈ (addStock host d).stocks, x ∉ d.stocks →
      x = host.toUpperCase (trim d.stockInput) := by
    intro x hx hnx
    by_cases h1 : host.toUpperCase (trim d.stockInput) = ""
    · rw [addStock_of_empty host d h1] at hx; exact absurd hx hnx
    by_cases h2 : host.toUpperCase (trim d.stockInput) ∈ d.stocks
    · rw [addStock_of_mem host d h1 h2] at hx; exact absurd hx hnx
    rw [(addStock_of_accept host d h1 h2).1] at hx
    rcases List.mem_append.1 hx with hx | hx
    · exact absurd hx hnx
    · simpa using hx
  refine ⟨hinv.nodup, hadd, fun hup htr => ?_⟩
  have hnorm : ∀ input, host.toUpperCase (trim (host.toUpperCase (trim input)))
      = host.toUpperCase (trim input) := by
    intro input
    rw [htr, hup]
  constructor
  · intro x hx hnx
    rw [hadd x hx hnx]
    exact hnorm _
  · intro x hx
    rcases hinv.origin x hx with h | ⟨input, rfl⟩
    · exact Or.inl h
    · exact Or.inr (hnorm input)

/-- Witness for C4: the example host satisfies both conditions on the case mapping, and after
adding ` nflx ` and `aapl` the tracked list is free of repetitions. -/
theorem stocks_nodup_witness :
    Reachable demoHost (run demoHost [Event.input " nflx ", Event.addStock, Event.input "aapl"]) ∧
    (∀ s, demoHost.toUpperCase (demoHost.toUpperCase s) = demoHost.toUpperCase s) ∧
    (∀ s, trim (demoHost.toUpperCase (trim s)) = demoHost.toUpperCase (trim s)) ∧
    (run demoHost [Event.input " nflx ", Event.addStock, Event.input "aapl"]).stocks.Nodup ∧
    (∀ x ∈ (run demoHost [Event.input " nflx ", Event.addStock, Event.input "aapl"]).stocks,
      x ∈ defaultStocks ∨ demoHost.toUpperCase (trim x) = x) :=
  ⟨⟨_, rfl⟩, demoHost_toUpperCase_idem, demoHost_trim_toUpperCase,
    (stocks_nodup demoHost _ ⟨_, rfl⟩).1,
    ((stocks_nodup demoHost _ ⟨_, rfl⟩).2.2 demoHost_toUpperCase_idem
      demoHost_trim_toUpperCase).2⟩

/-- Claim C5.  In every reachable state the keys of the quotes are the tracked symbols, in the
same order: a symbol is tracked exactly when it has a quote, and the quote stored under a key
has that key as its symbol. -/
theorem stockData_keys_in_sync (host : Host) (d : StockDashboard) (hd : Reachable host d) :
    Map.keys d.stockData = d.stocks ∧
    (∀ k, k ∈ d.stocks ↔ ∃ q, Map.get d.stockData k = some q) ∧
    (∀ k q, Map.get d.stockData k = some q → q.symbol = k) := by
  have hinv := Invariant.of_reachable hd
  refine ⟨hinv.keys, fun k => ⟨fun hk => ?_, fun ⟨q, hq⟩ => ?_⟩, fun k q hq => ?_⟩
  · rw [← hinv.keys] at hk
    exact Map.get_isSome_of_mem_keys hk
  · rw [← hinv.keys]
    exact Map.mem_keys_of_get hq
  · exact hinv.symbol _ (Map.get_eq_some hq)

/-- Witness for C5: the dashboard after adding `NFLX`, removing `TSLA` and a refresh. -/
theorem stockData_keys_in_sync_witness :
    Reachable demoHost (run demoHost
      [Event.input "NFLX", Event.addStock, Event.removeStock "TSLA", Event.refreshAll]) ∧
    Map.keys (run demoHost
      [Event.input "NFLX", Event.addStock, Event.removeStock "TSLA", Event.refreshAll]).stockData
      = (run demoHost
      [Event.input "NFLX", Event.addStock, Event.removeStock "TSLA", Event.refreshAll]).stocks :=
  ⟨⟨_, rfl⟩, (stockData_keys_in_sync demoHost _ ⟨_, rfl⟩).1⟩

/-- Claim C6.  In any state and for any results of `Math.random()`, `refreshAllStocks` leaves
the tracked list as it is, leaves under every tracked symbol a quote generated during the call,
keeps the keys of the quotes in place and adds after them only tracked symbols that had none (so
no key is added when every tracked symbol had a quote), and ends with the success notice as the
one new notice. -/
theorem refreshAllStocks_spec (host : Host) (d : StockDashboard) :
    (refreshAllStocks host d).stocks = d.stocks ∧
    (∀ s ∈ d.stocks, ∃ k t, d.randomCalls ≤ k ∧ k + 8 ≤ (refreshAllStocks host d).randomCalls ∧
      Map.get (refreshAllStocks host d).stockData s
        = some (mockStockData s (fun i => host.random (k + i)) t)) ∧
    (∀ k, k ∈ Map.keys (refreshAllStocks host d).stockData
      ↔ k ∈ Map.keys d.stockData ∨ k ∈ d.stocks) ∧
    Map.keys d.stockData <+: Map.keys (refreshAllStocks host d).stockData ∧
    ((∀ s ∈ d.stocks, s ∈ Map.keys d.stockData) →
      Map.keys (refreshAllStocks host d).stockData = Map.keys d.stockData) ∧
    (refreshAllStocks host d).messages = d.messages ++
      [{ text := "All stocks refreshed successfully", type := "success" }] := by
  obtain ⟨a1, a2, _, _, _, a6⟩ := refreshAllStocks_fields host d
  refine ⟨a1, fun s hs => ?_, fun k => ?_, ?_, fun hsub => ?_, a6⟩
  · obtain ⟨k, t, h1, h2, h3⟩ := fetchLoop_get_of_mem host d.stocks (showLoading d true) s hs
    refine ⟨k, t, h1, le_trans h2 (refreshAllStocks_randomCalls_ge host d), ?_⟩
    rw [a2]; exact h3
  · rw [a2]; exact fetchLoop_mem_keys host d.stocks (showLoading d true) k
  · rw [a2]; exact fetchLoop_keys_prefix host d.stocks (showLoading d true)
  · rw [a2]; exact fetchLoop_keys_of_subset host d.stocks (showLoading d true) hsub

/-- Claim C7, as amended.  For a non-negative integer `n` up to `2 ^ 53`, `formatNumber n` is
the decimal representation of `n` below 1000; from 1000 it is a tenth nearest to `n / 1000`
followed by `K`, and from 1000000 a tenth nearest to `n / 1000000` followed by `M` (`m` counts
the tenths).  In particular 999 gives `999`, 1500 gives `1.5K` and 2300000 gives `2.3M`. -/
theorem formatNumber_spec (n : ℕ) (hn : n ≤ 2 ^ 53) :
    (n < 1000 → formatNumber n = Nat.repr n) ∧
    (1000 ≤ n → n < 1000000 →
      ∃ m : ℕ, 2 * (m * 1000) ≤ 20 * n + 1000 ∧ 20 * n ≤ 2 * (m * 1000) + 1000 ∧
        formatNumber n = Nat.repr (m / 10) ++ "." ++ Nat.repr (m % 10) ++ "K") ∧
    (1000000 ≤ n →
      ∃ m : ℕ, 2 * (m * 1000000) ≤ 20 * n + 1000000 ∧ 20 * n ≤ 2 * (m * 1000000) + 1000000 ∧
        formatNumber n = Nat.repr (m / 10) ++ "." ++ Nat.repr (m % 10) ++ "M") ∧
    formatNumber 999 = "999" ∧ formatNumber 1500 = "1.5K" ∧ formatNumber 2300000 = "2.3M" := by
  refine ⟨fun h => ?_, formatNumber_thousands n, fun h => formatNumber_millions n h hn,
    by decide, formatNumber_1500, formatNumber_2300000⟩
  simp [formatNumber, show ¬ 1000000 ≤ n by omega, show ¬ 1000 ≤ n by omega]

/-- Witness for C7: the argument 1234567. -/
theorem formatNumber_spec_witness :
    1234567 ≤ 2 ^ 53 ∧
    ∃ m : ℕ, 2 * (m * 1000000) ≤ 20 * 1234567 + 1000000 ∧
      20 * 1234567 ≤ 2 * (m * 1000000) + 1000000 ∧
      formatNumber 1234567 = Nat.repr (m / 10) ++ "." ++ Nat.repr (m % 10) ++ "M" :=
  ⟨by norm_num, (formatNumber_spec 1234567 (by norm_num)).2.2.1 (by norm_num)⟩

/-- Counterexample to C7 as stated.  The integer 288230376152249984 is a binary64 number and
divided by 1000000 it is 288230376152.249984, whose nearest tenth is 288230376152.2; the
division rounds the quotient to 288230376152.25 and `formatNumber` returns
`288230376152.3M`. -/
theorem formatNumber_not_nearest :
    formatNumber 288230376152249984 = "288230376152.3M" ∧
    ¬ ∃ m : ℕ, 2 * (m * 1000000) ≤ 20 * 288230376152249984 + 1000000 ∧
      20 * 288230376152249984 ≤ 2 * (m * 1000000) + 1000000 ∧
      formatNumber 288230376152249984
        = Nat.repr (m / 10) ++ "." ++ Nat.repr (m % 10) ++ "M" := by
  refine ⟨formatNumber_large, ?_⟩
  rintro ⟨m, h1, h2, h3⟩
  have hm : m = 2882303761522 := by omega
  subst hm
  rw [formatNumber_large] at h3
  revert h3
  decide

/-- Claim C8.  In every reachable state at most one interval timer is live: the live timers are
the one whose handle is in `autoRefreshInterval`, a handle that is not 0, or none when that field
is `null`.  Calling `setupAutoRefresh` twice leaves exactly one live timer and calling
`clearAutoRefresh` leaves none. -/
theorem autoRefresh_single_timer (host : Host) (d : StockDashboard) (hd : Reachable host d) :
    d.intervals.length ≤ 1 ∧
    d.intervals = d.autoRefreshInterval.toList ∧
    (∀ id, d.autoRefreshInterval = some id → id ≠ 0 ∧ d.intervals = [id]) ∧
    (d.autoRefreshInterval = none → d.intervals = []) ∧
    (setupAutoRefresh host (setupAutoRefresh host d)).intervals.length = 1 ∧
    (clearAutoRefresh d).intervals = [] := by
  have hinv := Invariant.of_reachable hd
  have hinv1 : Invariant host (setupAutoRefresh host d) := hinv.setupAutoRefresh
  refine ⟨?_, hinv.timers, fun id hid => ⟨hinv.handle id hid, ?_⟩, fun hn => ?_, ?_,
    (clearAutoRefresh_timers d hinv.timers hinv.handle).1⟩
  · rw [hinv.timers]
    cases d.autoRefreshInterval <;> simp
  · rw [hinv.timers, hid]; rfl
  · rw [hinv.timers, hn]; rfl
  · rw [(setupAutoRefresh_timers host _ hinv1.timers hinv1.handle).1]
    rfl

/-- Witness for C8: the checkbox is ticked twice, the page is hidden and shown again. -/
theorem autoRefresh_single_timer_witness :
    Reachable demoHost (run demoHost [Event.autoRefreshChange true,
      Event.autoRefreshChange true, Event.visibilityChange true,
      Event.visibilityChange false]) ∧
    (run demoHost [Event.autoRefreshChange true, Event.autoRefreshChange true,
      Event.visibilityChange true, Event.visibilityChange false]).intervals.length ≤ 1 :=
  ⟨⟨_, rfl⟩, (autoRefresh_single_timer demoHost _ ⟨_, rfl⟩).1⟩

/-- Counterexample to C9 as stated.  No results of `Math.random()` in `[0, 1)` give a quote
with the high below the price or the price below the low. -/
theorem generateMockStockData_price_between :
    ¬ ∃ (symbol : String) (r : ℕ → ℚ) (time : ℤ), (∀ i, 0 ≤ r i ∧ r i < 1) ∧
      ((mockStockData symbol r time).high.value < (mockStockData symbol r time).price.value ∨
        (mockStockData symbol r time).price.value < (mockStockData symbol r time).low.value) := by
  rintro ⟨symbol, r, time, hr, h⟩
  obtain ⟨h1, h2⟩ := mockStockData_low_le_price_le_high symbol r time hr
  rcases h with h | h
  · exact absurd h2 (not_le.2 h)
  · exact absurd h1 (not_le.2 h)

/-- Claim C9, as amended.  For all results of `Math.random()` in `[0, 1)` the quote of
`generateMockStockData` has its low at most its price and its price at most its high.  The open
is not kept between the low and the high: some results give a high below the open, and some
give an open below the low. -/
theorem generateMockStockData_consistency :
    (∀ (host : Host) (d : StockDashboard) (symbol : String),
      (generateMockStockData host d symbol).1.low.value
          ≤ (generateMockStockData host d symbol).1.price.value ∧
        (generateMockStockData host d symbol).1.price.value
          ≤ (generateMockStockData host d symbol).1.high.value) ∧
    (∀ (symbol : String) (r : ℕ → ℚ) (time : ℤ), (∀ i, 0 ≤ r i ∧ r i < 1) →
      (mockStockData symbol r time).low.value ≤ (mockStockData symbol r time).price.value ∧
        (mockStockData symbol r time).price.value ≤ (mockStockData symbol r time).high.value) ∧
    (∃ (symbol : String) (r : ℕ → ℚ) (time : ℤ), (∀ i, 0 ≤ r i ∧ r i < 1) ∧
      (mockStockData symbol r time).high.value < (mockStockData symbol r time).open_.value) ∧
    (∃ (symbol : String) (r : ℕ → ℚ) (time : ℤ), (∀ i, 0 ≤ r i ∧ r i < 1) ∧
      (mockStockData symbol r time).open_.value < (mockStockData symbol r time).low.value) := by
  refine ⟨fun host d symbol => ?_, mockStockData_low_le_price_le_high, ?_, ?_⟩
  · show (mockStockData symbol (fun i => host.random (d.randomCalls + i))
        (host.now d.dateCalls)).low.value
        ≤ (mockStockData symbol (fun i => host.random (d.randomCalls + i))
          (host.now d.dateCalls)).price.value ∧
      (mockStockData symbol (fun i => host.random (d.randomCalls + i))
        (host.now d.dateCalls)).price.value
        ≤ (mockStockData symbol (fun i => host.random (d.randomCalls + i))
          (host.now d.dateCalls)).high.value
    exact mockStockData_low_le_price_le_high symbol _ _
      (fun i => ⟨host.random_nonneg _, host.random_lt_one _⟩)
  · exact ⟨"AAPL", exampleDraws, 0, exampleDraws_range, mockStockData_high_lt_open⟩
  · exact ⟨"AAPL", fun _ => 0, 0, fun _ => ⟨le_refl _, zero_lt_one⟩,
      mockStockData_open_lt_low⟩

/-- Claim C10.  In every reachable state both charts exist and `updateCharts` sets the doughnut
chart to one entry for each tracked symbol: the labels are the tracked list, in the order in
which `renderStockCards` lays out the cards, and the value at each place is `parseFloat` of the
price of the quote stored for the symbol at that place.  The new labels and values depend on the
previous ones in no way. -/
theorem updateCharts_portfolio (host : Host) (d : StockDashboard) (hd : Reachable host d) :
    d.portfolioChart.isSome ∧ d.marketChart.isSome ∧
    (renderStockCards d).stockGrid.map (fun c => c.symbol) = d.stocks ∧
    ∃ c : PortfolioChart, (updateCharts host d).portfolioChart = some c ∧
      c.labels = d.stocks ∧
      List.Forall₂ (fun s v => ∃ q, Map.get d.stockData s = some q ∧ v = parseFloat q.price)
        d.stocks c.data := by
  have hinv := Invariant.of_reachable hd
  refine ⟨hinv.portfolio_isSome, hinv.market, renderStockCards_symbols hinv, _,
    updateCharts_portfolioChart host d hinv.portfolio_isSome hinv.market, hinv.keys, ?_⟩
  have hnd : (Map.keys d.stockData).Nodup := by rw [hinv.keys]; exact hinv.nodup
  have hall : ∀ e ∈ d.stockData, ∃ q, Map.get d.stockData e.1 = some q ∧
      parseFloat e.2.price = parseFloat q.price :=
    fun e he => ⟨e.2, Map.get_of_mem_of_nodup hnd he, rfl⟩
  rw [← hinv.keys]
  simp only [Map.keys]
  generalize hm : d.stockData = m at hall
  clear hm hnd
  have key : ∀ (l : List (String × Quote)),
      (∀ e ∈ l, ∃ q, Map.get m e.1 = some q ∧ parseFloat e.2.price = parseFloat q.price) →
      List.Forall₂ (fun s v => ∃ q, Map.get m s = some q ∧ v = parseFloat q.price)
        (l.map Prod.fst) (l.map (fun e => parseFloat e.2.price)) := by
    intro l
    induction l with
    | nil => intro _; exact List.Forall₂.nil
    | cons a t ih =>
      intro h
      exact List.Forall₂.cons (h a (List.mem_cons_self _ _))
        (ih (fun e he => h e (List.mem_cons_of_mem _ he)))
  exact key m hall

/-- Witness for C10: the dashboard after adding `NFLX`. -/
theorem updateCharts_portfolio_witness :
    Reachable demoHost (run demoHost [Event.input "NFLX", Event.addStock]) ∧
    ∃ c : PortfolioChart,
      (updateCharts demoHost (run demoHost [Event.input "NFLX", Event.addStock])).portfolioChart
        = some c ∧
      c.labels = (run demoHost [Event.input "NFLX", Event.addStock]).stocks :=
  ⟨⟨_, rfl⟩,
    let ⟨c, h1, h2, _⟩ := (updateCharts_portfolio demoHost _ ⟨_, rfl⟩).2.2.2
    ⟨c, h1, h2⟩⟩

end StockDashboard
